import Mathlib

/-!
A shallow embedding of the Oatmeal protocol core (`src/python/oatmeal/protocol.py`).

Bytes on the wire are modelled as `Nat` (values 0..255); Python `str` values are
modelled by the list of bytes of their UTF-8 encoding; Python `float` arguments
are modelled by the 6-significant-figure numeral that `b'%.*g'` prints for them
(`OatmealMsg.real_sig_figs = 6`), so that the spec's precondition "the float
survives a 6-sig-fig round-trip" becomes: the numeral re-parses to itself.
-/

namespace Oatmeal

/-- Constant `OatmealMsg.FRAME_START_BYTE`, the byte of the character `<`. -/
def FRAME_START_BYTE : Nat := 60

/-- Constant `OatmealMsg.FRAME_END_BYTE`, the byte of the character `>`. -/
def FRAME_END_BYTE : Nat := 62

/-- Constant `OatmealMsg.LIST_START_BYTE`, the byte of the character `[`. -/
def LIST_START_BYTE : Nat := 91

/-- Constant `OatmealMsg.LIST_END_BYTE`, the byte of the character `]`. -/
def LIST_END_BYTE : Nat := 93

/-- Constant `OatmealMsg.DICT_START_BYTE`, the byte of the left curly bracket. -/
def DICT_START_BYTE : Nat := 123

/-- Constant `OatmealMsg.DICT_END_BYTE`, the byte of the right curly bracket. -/
def DICT_END_BYTE : Nat := 125

/-- Constant `OatmealMsg.SEP_BYTE`, the byte of the character `,`. -/
def SEP_BYTE : Nat := 44

/-- Constant `OatmealMsg.MIN_FRAME_LEN`. -/
def MIN_FRAME_LEN : Nat := 10

/-- Constant `OatmealMsg.DEFAULT_MAX_FRAME_LEN`. -/
def DEFAULT_MAX_FRAME_LEN : Nat := 512

/-- Function `_max_frame_hard_limit`: the hard limit is twice the soft maximum. -/
def max_frame_hard_limit (max_frame_len : Nat) : Nat := max_frame_len * 2

/-- The Oatmeal value union (`OatmealItem`).  Python `list` and `tuple` are
distinct runtime types with distinct equality, hence distinct constructors;
a dict is an insertion-ordered association list, as a Python `dict` is. -/
inductive Value where
  | int (n : Int)
  | real (s : List Nat)
  | bool (b : Bool)
  | null
  | str (s : List Nat)
  | bytes (b : List Nat)
  | list (xs : List Value)
  | tuple (xs : List Value)
  | dict (kvs : List (List Nat × Value))

/-- An `OatmealMsg`: opcode, token (`None` until assigned) and args. -/
structure Msg where
  opcode : List Nat
  token : Option (List Nat)
  args : List Value

/-- Map `ESCAPING_BYTES` applied to one byte: the escape sequence a byte is written
as inside a quoted string, or the byte itself when it needs no escape. -/
def escapeByte (b : Nat) : List Nat :=
  if b = 92 then [92, 92]
  else if b = 34 then [92, 34]
  else if b = 60 then [92, 40]
  else if b = 62 then [92, 41]
  else if b = 10 then [92, 110]
  else if b = 13 then [92, 114]
  else if b = 0 then [92, 48]
  else [b]

/-- Map `ESCAPED_BYTES`: the byte an escape character stands for. -/
def escapedByte (b : Nat) : Option Nat :=
  if b = 92 then some 92
  else if b = 34 then some 34
  else if b = 40 then some 60
  else if b = 41 then some 62
  else if b = 110 then some 10
  else if b = 114 then some 13
  else if b = 48 then some 0
  else none

/-- The escape map applied to a byte string. -/
def escapeBytes (buf : List Nat) : List Nat :=
  match buf with
  | [] => []
  | b :: rest => escapeByte b ++ escapeBytes rest

/-- Method `OatmealMsg._encode_bytes`: wrap escaped bytes in double quotes. -/
def encode_bytes (buf : List Nat) : List Nat := 34 :: escapeBytes buf ++ [34]

/-- Error classes raised while decoding.  `parse` is `OatmealParseError`
(caught by `convert_frame`); `ascii` is the `UnicodeDecodeError` that
`_parse_single_item` lets escape; `value` covers the `ValueError` and
`AssertionError` raised by `validate`/asserts; `fuel` is the recursion
bound of the embedding (never reached with enough fuel). -/
inductive PErr where
  | parse
  | ascii
  | value
  | fuel
  deriving DecidableEq

/-- The loop of `OatmealMsg._decode_bytes`: walk the bytes after the opening
quote with a backslash-escape flag, an accumulator of decoded bytes and the
count `i` of bytes consumed so far (starting at 1 for the opening quote). -/
def decodeBytesGo : List Nat → Bool → List Nat → Nat → Except PErr (List Nat × Nat)
  | [], _, _, _ => .error .parse
  | b :: rest, esc, acc, i =>
    if esc then
      match escapedByte b with
      | none => .error .parse
      | some d => decodeBytesGo rest false (acc ++ [d]) (i + 1)
    else if b = 92 then decodeBytesGo rest true acc (i + 1)
    else if b = 34 then .ok (acc, i + 1)
    else decodeBytesGo rest false (acc ++ [b]) (i + 1)

/-- Method `OatmealMsg._decode_bytes`: decode a quoted byte string from the start of
`buf` (the caller has checked that `buf` starts with a double quote);
return the decoded bytes and the number of bytes consumed. -/
def decode_bytes (buf : List Nat) : Except PErr (List Nat × Nat) :=
  decodeBytesGo (buf.drop 1) false [] 1

/-- ASCII whitespace as stripped by Python `str.strip()`. -/
def isSpaceByte (b : Nat) : Bool := b = 32 || b = 9 || b = 10 || b = 11 || b = 12 || b = 13

/-- Strip leading and trailing whitespace. -/
def trimWs (s : List Nat) : List Nat :=
  ((s.dropWhile isSpaceByte).reverse.dropWhile isSpaceByte).reverse

/-- ASCII decimal digit. -/
def isDigitByte (b : Nat) : Bool := 48 ≤ b && b ≤ 57

/-- Numeric value of a string of decimal digit bytes. -/
def digitsVal (s : List Nat) : Nat := s.foldl (fun acc d => acc * 10 + (d - 48)) 0

/-- Model of Python `int(s)` on an ASCII byte string: optional surrounding whitespace,
an optional sign, then decimal digits (digit-group underscores are not
modelled).  `none` models `ValueError`. -/
def pyParseInt (s : List Nat) : Option Int :=
  match trimWs s with
  | [] => none
  | c :: ds =>
    if c = 43 then
      if ds ≠ [] ∧ ds.all isDigitByte then some (digitsVal ds) else none
    else if c = 45 then
      if ds ≠ [] ∧ ds.all isDigitByte then some (-(digitsVal ds : Int)) else none
    else if (c :: ds).all isDigitByte then some (digitsVal (c :: ds)) else none

/-- The exponent suffix of a float literal: empty, or `e`/`E`, an optional
sign and at least one digit. -/
def floatExpPart (s : List Nat) : Bool :=
  match s with
  | [] => true
  | e :: r =>
    if e = 101 || e = 69 then
      let r2 := match r with
        | c :: r1 => if c = 43 || c = 45 then r1 else c :: r1
        | [] => []
      r2 ≠ [] && r2.all isDigitByte
    else false

/-- The body of a decimal float literal (after sign removal):
`digits [. digits] [exp]` or `. digits [exp]`, with digits required on at
least one side of the point. -/
def floatNumericBody (s : List Nat) : Bool :=
  let intPart := s.takeWhile isDigitByte
  let rest := s.dropWhile isDigitByte
  match rest with
  | [] => !intPart.isEmpty
  | d :: r =>
    if d = 46 then
      let fracPart := r.takeWhile isDigitByte
      let r2 := r.dropWhile isDigitByte
      (!intPart.isEmpty || !fracPart.isEmpty) && floatExpPart r2
    else !intPart.isEmpty && floatExpPart (d :: r)

/-- Lower-case an ASCII byte. -/
def lowerByte (b : Nat) : Nat := if 65 ≤ b ∧ b ≤ 90 then b + 32 else b

/-- Model of Python `float(s)` acceptance on an ASCII byte string: optional
whitespace and sign, then a decimal literal or `inf`/`infinity`/`nan`
(case-insensitive; digit-group underscores are not modelled). -/
def pyFloatAccepts (s : List Nat) : Bool :=
  let t := trimWs s
  let t2 := match t with
    | c :: r => if c = 43 || c = 45 then r else c :: r
    | [] => []
  let low := t2.map lowerByte
  floatNumericBody t2 || low = [105, 110, 102] ||
    low = [105, 110, 102, 105, 110, 105, 116, 121] || low = [110, 97, 110]

/-- Method `OatmealMsg._decode_str`: interpret an unquoted token as an int, then a
float, then `T`/`F`/`N`, falling back to a string.  A token accepted by
`float()` is kept as `Value.real` of the token text itself, which is how
this embedding represents the Python float it denotes. -/
def decode_str (s : List Nat) : Value :=
  match pyParseInt s with
  | some n => .int n
  | none =>
    if pyFloatAccepts s then .real s
    else if s = [84] then .bool true
    else if s = [70] then .bool false
    else if s = [78] then .null
    else .str s

/-- A UTF-8 continuation byte in a given inclusive range. -/
def utf8Cont (lo hi b : Nat) : Bool := lo ≤ b && b ≤ hi

/-- Strict UTF-8 validity of a byte string, as checked by Python
`bytes.decode('utf-8')`: overlong encodings, surrogates and values beyond
U+10FFFF are rejected. -/
def isValidUtf8 : List Nat → Bool
  | [] => true
  | b :: rest =>
    if b ≤ 127 then isValidUtf8 rest
    else if 194 ≤ b ∧ b ≤ 223 then
      match rest with
      | c :: r => utf8Cont 128 191 c && isValidUtf8 r
      | [] => false
    else if b = 224 then
      match rest with
      | c :: d :: r => utf8Cont 160 191 c && utf8Cont 128 191 d && isValidUtf8 r
      | _ => false
    else if (225 ≤ b ∧ b ≤ 236) ∨ b = 238 ∨ b = 239 then
      match rest with
      | c :: d :: r => utf8Cont 128 191 c && utf8Cont 128 191 d && isValidUtf8 r
      | _ => false
    else if b = 237 then
      match rest with
      | c :: d :: r => utf8Cont 128 159 c && utf8Cont 128 191 d && isValidUtf8 r
      | _ => false
    else if b = 240 then
      match rest with
      | c :: d :: e :: r =>
        utf8Cont 144 191 c && utf8Cont 128 191 d && utf8Cont 128 191 e && isValidUtf8 r
      | _ => false
    else if 241 ≤ b ∧ b ≤ 243 then
      match rest with
      | c :: d :: e :: r =>
        utf8Cont 128 191 c && utf8Cont 128 191 d && utf8Cont 128 191 e && isValidUtf8 r
      | _ => false
    else if b = 244 then
      match rest with
      | c :: d :: e :: r =>
        utf8Cont 128 143 c && utf8Cont 128 191 d && utf8Cont 128 191 e && isValidUtf8 r
      | _ => false
    else false

/-- The bytes that terminate an unquoted scalar token: `,`, `]` and the
right curly bracket. -/
def isTermByte (b : Nat) : Bool := b = 44 || b = 93 || b = 125

/-- Method `OatmealMsg._parse_single_item`: a quoted string, a `0`-prefixed quoted
byte blob, or an unquoted scalar token scanned up to a terminator byte.
Returns the item and the number of bytes consumed (`(null, 0)` models
Python's `(None, 0)` for an empty token). -/
def parse_single_item (buf : List Nat) : Except PErr (Value × Nat) :=
  if 2 ≤ buf.length ∧ buf.head? = some 34 then
    match decode_bytes buf with
    | .error e => .error e
    | .ok (sb, n) => if isValidUtf8 sb then .ok (.str sb, n) else .error .parse
  else if 3 ≤ buf.length ∧ buf.take 2 = [48, 34] then
    match decode_bytes (buf.drop 1) with
    | .error e => .error e
    | .ok (db, n) => .ok (.bytes db, n + 1)
  else
    let tok := buf.takeWhile (fun b => !isTermByte b)
    if tok = [] then .ok (.null, 0)
    else if tok.all (· ≤ 127) then .ok (decode_str tok, tok.length)
    else .error .ascii


/-- Python `d[key] = val` on an insertion-ordered association list: replace
the value in place if the key is present, otherwise append. -/
def dictInsert (d : List (List Nat × Value)) (key : List Nat) (v : Value) :
    List (List Nat × Value) :=
  match d with
  | [] => [(key, v)]
  | (k0, v0) :: r => if k0 = key then (k0, v) :: r else (k0, v0) :: dictInsert r key v

/-- Character class `[a-zA-Z0-9_]` of dictionary keys. -/
def isKeyChar (b : Nat) : Bool :=
  (65 ≤ b && b ≤ 90) || (97 ≤ b && b ≤ 122) || (48 ≤ b && b ≤ 57) || b = 95

/-- Method `OatmealMsg.is_valid_dict_key`.  The source tests
`re.match("[a-zA-Z0-9_]+", key) is not None`, and `re.match` anchors only
at the start of the string, so the test holds exactly when the key is
non-empty and its first character is in the class. -/
def is_valid_dict_key (key : List Nat) : Bool :=
  match key with
  | [] => false
  | c :: _ => isKeyChar c

mutual

/-- Method `OatmealMsg._parse_arg`: dispatch on the first byte to the list,
dict or single-item parser and reject items that consumed no bytes.  The
first argument is recursion fuel (the Python recursion is bounded by the
input length; `decode` supplies enough fuel for any input).  An empty `buf`
would raise `IndexError` in Python (modelled `.value`); it is unreachable
from `parse_args` since every suffix it hands out is inside the trailing
close bracket. -/
def parse_arg : Nat → List Nat → Except PErr (Value × Nat)
  | 0, _ => .error .fuel
  | fuel + 1, buf =>
    match buf with
    | [] => .error .value
    | b :: _ =>
      if b = LIST_START_BYTE then
        match parse_list_go fuel (buf.drop 1) [] with
        | .error e => .error e
        | .ok (xs, n) => .ok (.list xs, n + 1)
      else if b = DICT_START_BYTE then
        match parse_dict_go fuel (buf.drop 1) [] with
        | .error e => .error e
        | .ok (d, n) => .ok (.dict d, n + 1)
      else
        match parse_single_item buf with
        | .error e => .error e
        | .ok (v, n) => if n = 0 then .error .parse else .ok (v, n)

/-- The loop of `OatmealMsg._parse_list` at a given offset: `b` holds the
bytes from the current offset on, `acc` the items parsed so far.  Returns
the items and the number of bytes consumed from the current offset
(including the closing bracket).  Running out of bytes models the
"List never finished" error. -/
def parse_list_go : Nat → List Nat → List Value → Except PErr (List Value × Nat)
  | 0, _, _ => .error .fuel
  | fuel + 1, b, acc =>
    match b with
    | [] => .error .parse
    | c :: rest =>
      if c = LIST_END_BYTE then .ok (acc, 1)
      else if 0 < acc.length then
        if c ≠ SEP_BYTE then .error .parse
        else
          match parse_arg fuel rest with
          | .error e => .error e
          | .ok (obj, n) =>
            match parse_list_go fuel (rest.drop n) (acc ++ [obj]) with
            | .error e => .error e
            | .ok (xs, m) => .ok (xs, 1 + n + m)
      else
        match parse_arg fuel (c :: rest) with
        | .error e => .error e
        | .ok (obj, n) =>
          match parse_list_go fuel ((c :: rest).drop n) (acc ++ [obj]) with
          | .error e => .error e
          | .ok (xs, m) => .ok (xs, n + m)

/-- The loop of `OatmealMsg._parse_dict` at a given offset: `b` holds the
bytes from the current offset on, `d` the entries parsed so far.  Key
search (`b.index(ord('='), offset)`) scans to the end of the whole buffer;
the key must decode as ASCII and pass `is_valid_dict_key`.  Returns the
dict and the bytes consumed from the current offset (including the closing
bracket). -/
def parse_dict_go : Nat → List Nat → List (List Nat × Value) →
    Except PErr (List (List Nat × Value) × Nat)
  | 0, _, _ => .error .fuel
  | fuel + 1, b, d =>
    match b with
    | [] => .error .parse
    | c :: rest =>
      if c = DICT_END_BYTE then .ok (d, 1)
      else if 0 < d.length then
        if c ≠ SEP_BYTE then .error .parse
        else if rest = [] then .error .parse
        else
          match parse_dict_entry fuel rest d with
          | .error e => .error e
          | .ok (d2, n) => .ok (d2, 1 + n)
      else
        match parse_dict_entry fuel (c :: rest) d with
        | .error e => .error e
        | .ok (d2, n) => .ok (d2, n)

/-- One `key=value` step of the `_parse_dict` loop followed by the rest of
the loop: find the equals sign, validate the key, parse the value with
`_parse_arg`, store it with Python dict assignment and continue. -/
def parse_dict_entry : Nat → List Nat → List (List Nat × Value) →
    Except PErr (List (List Nat × Value) × Nat)
  | 0, _, _ => .error .fuel
  | fuel + 1, cur, d =>
    let keyBytes := cur.takeWhile (fun b => b ≠ 61)
    if keyBytes.length = cur.length then .error .parse
    else if ¬ keyBytes.all (· ≤ 127) then .error .parse
    else if ¬ is_valid_dict_key keyBytes then .error .parse
    else
      match parse_arg fuel (cur.drop (keyBytes.length + 1)) with
      | .error e => .error e
      | .ok (v, n) =>
        match parse_dict_go fuel (cur.drop (keyBytes.length + 1 + n))
            (dictInsert d keyBytes v) with
        | .error e => .error e
        | .ok (d2, m) => .ok (d2, keyBytes.length + 1 + n + m)

end

/-- Method `OatmealMsg._parse_list`: check the opening bracket (the Python
assert) and run the loop from offset 1. -/
def parse_list (fuel : Nat) (b : List Nat) : Except PErr (List Value × Nat) :=
  match b with
  | c :: rest =>
    if c = LIST_START_BYTE then
      match parse_list_go fuel rest [] with
      | .error e => .error e
      | .ok (xs, n) => .ok (xs, n + 1)
    else .error .value
  | [] => .error .value

/-- Method `OatmealMsg._parse_args`: wrap the argument bytes in brackets,
parse as a list, and reject a parse that stopped before the end (surplus
close bracket). -/
def parse_args (buf : List Nat) : Except PErr (List Value) :=
  let b := LIST_START_BYTE :: buf ++ [LIST_END_BYTE]
  match parse_list (b.length + 1) b with
  | .error e => .error e
  | .ok (args, n) => if n < b.length then .error .parse else .ok args

/-- Lexicographic strict order on byte strings, as Python compares ASCII
`str` values. -/
def bytesLt : List Nat → List Nat → Bool
  | [], [] => false
  | [], _ :: _ => true
  | _ :: _, [] => false
  | a :: as2, b :: bs => if a < b then true else if b < a then false else bytesLt as2 bs

/-- Insert an encoded `(key, encoded value)` pair into a sorted run, keeping
insertion order among equal keys (Python `sorted` is stable; with the
unique keys of a Python dict only keys are ever compared). -/
def insertPair (p : List Nat × List Nat) :
    List (List Nat × List Nat) → List (List Nat × List Nat)
  | [] => [p]
  | q :: r => if bytesLt p.1 q.1 then p :: q :: r else q :: insertPair p r

/-- Stable sort of encoded dict entries by key, modelling
`sorted(x.items())` (which, for the unique keys of a dict, orders by key
alone). -/
def sortPairs : List (List Nat × List Nat) → List (List Nat × List Nat)
  | [] => []
  | p :: r => insertPair p (sortPairs r)

/-- Decimal digits of a natural number below the fuel bound (the recursion
of repeated division by ten, made structural on a fuel argument so that it
reduces definitionally). -/
def natToDecGo : Nat → Nat → List Nat
  | 0, _ => []
  | fuel + 1, n =>
    if n < 10 then [48 + n]
    else natToDecGo fuel (n / 10) ++ [48 + n % 10]

/-- Decimal digits of a natural number, as Python `str` prints it. -/
def natToDec (n : Nat) : List Nat := natToDecGo (n + 1) n

/-- Python `str(x)` for an integer: decimal digits with a leading minus
sign when negative. -/
def intToDec (n : Int) : List Nat :=
  if n < 0 then 45 :: natToDec n.natAbs else natToDec n.toNat

/-- Join encoded chunks with the separator byte, as `b','.join`. -/
def joinBytes : List (List Nat) → List Nat
  | [] => []
  | [x] => x
  | x :: xs => x ++ 44 :: joinBytes xs

mutual

/-- Method `OatmealMsg._encode_val`: the byte serialisation of one value.
Python sorts `x.items()` before encoding the values of a dict; since that
sort compares keys only (dict keys are unique), it is equivalent to first
encoding each value and then stably sorting the encoded pairs by key,
which is how this embedding schedules it. -/
def encode_val : Value → List Nat
  | .list xs => LIST_START_BYTE :: encodeList xs ++ [LIST_END_BYTE]
  | .tuple xs => LIST_START_BYTE :: encodeList xs ++ [LIST_END_BYTE]
  | .dict kvs =>
    DICT_START_BYTE ::
      joinBytes ((sortPairs (encodeEntries kvs)).map (fun p => p.1 ++ 61 :: p.2)) ++
      [DICT_END_BYTE]
  | .bool true => [84]
  | .bool false => [70]
  | .null => [78]
  | .int n => intToDec n
  | .real s => s
  | .bytes b => 48 :: encode_bytes b
  | .str s => encode_bytes s

/-- Encoded argument list joined with separators, as
`b','.join(self._encode_val(i) for i in x)`. -/
def encodeList : List Value → List Nat
  | [] => []
  | [v] => encode_val v
  | v :: vs => encode_val v ++ 44 :: encodeList vs

/-- Each dict entry paired with its encoded value, in insertion order. -/
def encodeEntries : List (List Nat × Value) → List (List Nat × List Nat)
  | [] => []
  | (k, v) :: r => (k, encode_val v) :: encodeEntries r

end

/-- Method `OatmealMsg.is_valid_token`: two printable non-whitespace ASCII
characters, none of space, `<` or `>`. -/
def is_valid_token (t : List Nat) : Bool :=
  t.length = 2 && t.all (fun c => 33 ≤ c && c ≤ 126 && c ≠ 32 && c ≠ 60 && c ≠ 62)

/-- Method `OatmealMsg.is_valid_opcode`: four printable non-whitespace ASCII
characters, none of space, `<` or `>`. -/
def is_valid_opcode (op : List Nat) : Bool :=
  op.length = 4 && op.all (fun c => 33 ≤ c && c ≤ 126 && c ≠ 32 && c ≠ 60 && c ≠ 62)

mutual

/-- The per-value part of `OatmealMsg.validate`: every traversed argument is
one of the permitted runtime types (always true of `Value`) and every dict
key passes `is_valid_dict_key`. -/
def validateArg : Value → Bool
  | .list xs => validateArgs xs
  | .tuple xs => validateArgs xs
  | .dict kvs => validateKvs kvs
  | _ => true

/-- Validation of a traversed argument list. -/
def validateArgs : List Value → Bool
  | [] => true
  | v :: vs => validateArg v && validateArgs vs

/-- Validation of traversed dict entries. -/
def validateKvs : List (List Nat × Value) → Bool
  | [] => true
  | (k, v) :: r => is_valid_dict_key k && validateArg v && validateKvs r

end

/-- Method `OatmealMsg.validate` as a success predicate: the token is
assigned and valid, the opcode is valid, and every traversed argument
passes the type and dict-key checks.  A `false` means Python raised
(`AssertionError` or `ValueError`). -/
def validateOk (m : Msg) : Bool :=
  match m.token with
  | none => false
  | some t => is_valid_opcode m.opcode && is_valid_token t && validateArgs m.args

/-- Method `OatmealMsg.checkbyte_uint16_to_ascii`: clip to 16 bits, reduce
into 33..124 and skip over the frame delimiter bytes. -/
def checkbyte_uint16_to_ascii (checksum : Nat) : Nat :=
  let c0 := checksum % 65536
  let c1 := c0 % (127 - 33 - 2) + 33
  let c2 := c1 + (if FRAME_START_BYTE ≤ c1 then 1 else 0)
  c2 + (if FRAME_END_BYTE ≤ c2 then 1 else 0)

/-- Method `OatmealMsg.length_checksum`. -/
def length_checksum (frame_len : Nat) : Nat :=
  checkbyte_uint16_to_ascii (frame_len * 7)

/-- The rolling hash of `OatmealMsg.calc_checksum`:
`h = ((h + c) * 31) & 0xff` over all bytes given. -/
def rollingHash (frame : List Nat) : Nat :=
  frame.foldl (fun h c => ((h + c) * 31) % 256) 0

/-- Method `OatmealMsg.calc_checksum`. -/
def calc_checksum (frame : List Nat) : Nat :=
  checkbyte_uint16_to_ascii (rollingHash frame)

/-- Method `OatmealMsg.encode`: validate, join the encoded args, then
append the end byte, the length checkbyte for the final frame length, and
the content checkbyte over everything before it.  An error models the
exception `validate` raises. -/
def Msg.encode (m : Msg) : Except PErr (List Nat) :=
  if validateOk m then
    match m.token with
    | some t =>
      let args := joinBytes (m.args.map encode_val)
      let body := FRAME_START_BYTE :: m.opcode ++ t ++ args
      let f2 := body ++ [FRAME_END_BYTE, length_checksum (body.length + 3)]
      .ok (f2 ++ [calc_checksum f2])
    | none => .error .value
  else .error .value

/-- Method `OatmealMsg.decode`: slice opcode, token and argument bytes out
of the frame, parse the args, rebuild the message and validate it.  The
slices must decode as ASCII (else `OatmealParseError`); a frame shorter
than `MIN_FRAME_LEN` fails the Python assert (modelled `.value`). -/
def Msg.decode (frame : List Nat) (hasChecksums : Bool) : Except PErr Msg :=
  if frame.length < MIN_FRAME_LEN then .error .value
  else
    let opcodeB := (frame.drop 1).take 4
    let tokenB := (frame.drop 5).take 2
    if opcodeB.all (· ≤ 127) && tokenB.all (· ≤ 127) then
      let argsBytes :=
        if hasChecksums then (frame.drop 7).dropLast.dropLast.dropLast
        else (frame.drop 7).dropLast
      match parse_args argsBytes with
      | .error e => .error e
      | .ok args =>
        let m : Msg := ⟨opcodeB, some tokenB, args⟩
        if validateOk m then .ok m else .error .value
    else .error .parse

/-- Class `OatmealStats`: the parse statistics counters. -/
structure Stats where
  n_frame_too_short : Nat
  n_frame_too_long : Nat
  n_missing_start_byte : Nat
  n_missing_end_byte : Nat
  n_invalid_bytes : Nat
  n_bad_checksums : Nat
  n_misc_bad_frames : Nat
  n_good_frames : Nat
  deriving DecidableEq

/-- Freshly constructed `OatmealStats` (all counters zero). -/
def Stats.init : Stats := ⟨0, 0, 0, 0, 0, 0, 0, 0⟩

/-- Enum `_PortState` of the frame reader. -/
inductive PState where
  | waitOnStart
  | waitOnEnd
  | waitOnLength
  | waitOnChecksum
  deriving DecidableEq

/-- Method `OatmealProtocol.convert_frame`: length checks, start and end
bytes, both checkbytes, then `OatmealMsg.decode`.  Returns `none` plus
updated stats when a check fails or decoding raises `OatmealParseError`;
any other exception class escapes to the caller (`.error`). -/
def convert_frame (frame : List Nat) (stats : Stats) (max_frame_len : Nat) :
    Except PErr (Option Msg × Stats) :=
  if frame.length < MIN_FRAME_LEN then
    .ok (none, { stats with n_frame_too_short := stats.n_frame_too_short + 1 })
  else
    let stats :=
      if max_frame_len < frame.length then
        { stats with n_frame_too_long := stats.n_frame_too_long + 1 }
      else stats
    if max_frame_len < frame.length ∧ max_frame_hard_limit max_frame_len < frame.length then
      .ok (none, stats)
    else if frame.head? ≠ some FRAME_START_BYTE then
      .ok (none, { stats with n_missing_start_byte := stats.n_missing_start_byte + 1 })
    else if frame.getD (frame.length - 3) 0 ≠ FRAME_END_BYTE then
      .ok (none, { stats with n_missing_end_byte := stats.n_missing_end_byte + 1 })
    else if frame.getD (frame.length - 2) 0 ≠ length_checksum frame.length then
      .ok (none, { stats with n_bad_checksums := stats.n_bad_checksums + 1 })
    else if frame.getD (frame.length - 1) 0 ≠ calc_checksum frame.dropLast then
      .ok (none, { stats with n_bad_checksums := stats.n_bad_checksums + 1 })
    else
      match Msg.decode frame true with
      | .ok msg => .ok (some msg, { stats with n_good_frames := stats.n_good_frames + 1 })
      | .error .parse =>
        .ok (none, { stats with n_misc_bad_frames := stats.n_misc_bad_frames + 1 })
      | .error e => .error e

/-- State of the byte-driven reader of `read_frame_loop`: the frame buffer,
the parser state and the statistics. -/
structure RState where
  frame_in : List Nat
  state : PState
  stats : Stats

/-- The body of `for b in buf` in `OatmealProtocol.read_frame_loop`: NUL
clears the buffer; a start byte begins a new frame from any state; other
bytes are dispatched on the parser state, and completing a frame runs
`convert_frame`, yielding the message when one is produced. -/
def read_step (s : RState) (b : Nat) (max_frame_len : Nat) :
    Except PErr (RState × Option Msg) :=
  if b = 0 then
    .ok (⟨[], .waitOnStart,
      { s.stats with n_invalid_bytes := s.stats.n_invalid_bytes + 1 }⟩, none)
  else if b = FRAME_START_BYTE then
    let st :=
      if s.state ≠ PState.waitOnStart then
        { s.stats with n_missing_end_byte := s.stats.n_missing_end_byte + 1 }
      else s.stats
    .ok (⟨[b], .waitOnEnd, st⟩, none)
  else
    match s.state with
    | .waitOnStart =>
      let st :=
        if b = FRAME_END_BYTE then
          { s.stats with n_missing_start_byte := s.stats.n_missing_start_byte + 1 }
        else s.stats
      .ok (⟨s.frame_in, .waitOnStart, st⟩, none)
    | .waitOnEnd =>
      if b = FRAME_END_BYTE then
        .ok (⟨s.frame_in ++ [b], .waitOnLength, s.stats⟩, none)
      else
        .ok (⟨s.frame_in ++ [b], .waitOnEnd, s.stats⟩, none)
    | .waitOnLength =>
      .ok (⟨s.frame_in ++ [b], .waitOnChecksum, s.stats⟩, none)
    | .waitOnChecksum =>
      match convert_frame (s.frame_in ++ [b]) s.stats max_frame_len with
      | .error e => .error e
      | .ok (msgOpt, stats2) => .ok (⟨[], .waitOnStart, stats2⟩, msgOpt)

/-- Fold `read_step` over a byte sequence, collecting yielded messages in
order. -/
def read_go (s : RState) (buf : List Nat) (max_frame_len : Nat) :
    Except PErr (RState × List Msg) :=
  match buf with
  | [] => .ok (s, [])
  | b :: rest =>
    match read_step s b max_frame_len with
    | .error e => .error e
    | .ok (s2, out) =>
      match read_go s2 rest max_frame_len with
      | .error e => .error e
      | .ok (s3, msgs) => .ok (s3, out.toList ++ msgs)

/-- One chunk of `read_frame_loop`: the buffer-overflow reset that runs
before the byte loop, then the byte loop itself.  (The real loop reads the
serial port in chunks; feeding all bytes as one chunk models a stream that
arrived before the next poll.) -/
def read_chunk (s : RState) (buf : List Nat) (max_frame_len : Nat) :
    Except PErr (RState × List Msg) :=
  let s :=
    if max_frame_hard_limit max_frame_len < s.frame_in.length then
      ⟨[], .waitOnStart,
        { s.stats with n_frame_too_long := s.stats.n_frame_too_long + 1 }⟩
    else s
  read_go s buf max_frame_len

/-- Python `string.ascii_letters`: the lower-case letters followed by the
upper-case letters. -/
def asciiLetters : List Nat :=
  [97, 98, 99, 100, 101, 102, 103, 104, 105, 106, 107, 108, 109, 110, 111,
   112, 113, 114, 115, 116, 117, 118, 119, 120, 121, 122,
   65, 66, 67, 68, 69, 70, 71, 72, 73, 74, 75, 76, 77, 78, 79, 80, 81, 82,
   83, 84, 85, 86, 87, 88, 89, 90]

/-- Method `OatmealPort.next_token` (with the default `n = 2`): read the
counter, advance it modulo `52 ** 2` under the token mutex, and build the
two-letter token from the old value.  Returns the token and the new
counter. -/
def next_token (tokenid : Nat) : List Nat × Nat :=
  ([asciiLetters.getD (tokenid / 52) 0, asciiLetters.getD (tokenid % 52) 0],
   (tokenid + 1) % (52 * 52))

/-- Method `OatmealPort.send`: assign the next token if the message has
none, then write the encoded frame.  Returns the message as transmitted
and the new token counter. -/
def sendAssign (tokenid : Nat) (msg : Msg) : Msg × Nat :=
  match msg.token with
  | none =>
    let (t, tid2) := next_token tokenid
    ({ msg with token := some t }, tid2)
  | some _ => (msg, tokenid)

/-- Errors surfaced by `send_and_ack`: `OatmealTimeout` and the
`OatmealError` raised on an opcode or token mismatch (the spec's
protocol-violation). -/
inductive PortErr where
  | timeout
  | protocol
  deriving DecidableEq

/-- The retry loop of `OatmealPort.send_and_ack` over a script of read
outcomes (`none` models a read that raised `OatmealTimeout`; reading past
the script also times out).  Returns the token of every transmission of
the message, in order, together with the outcome: the ACK when the next
foreground message matches the expected opcode and the last-sent token, a
protocol violation when it does not (the message is consumed and the loop
aborted), and after the final timed-out attempt the message is re-stamped
with a fresh token and `OatmealTimeout` is raised once no attempt is
left. -/
def sendAndAckGo : Nat → Nat → Msg → List Nat → List (Option Msg) →
    List (Option (List Nat)) × Except PortErr Msg
  | 0, _, _, _, _ => ([], .error .timeout)
  | attempts + 1, tokenid, msg, ackcode, reads =>
    let (msg2, tid2) := sendAssign tokenid msg
    match reads.head? with
    | some (some res) =>
      if res.opcode = ackcode ∧ res.token = msg2.token then
        ([msg2.token], .ok res)
      else ([msg2.token], .error .protocol)
    | _ =>
      let (t, tid3) := next_token tid2
      let msg3 := { msg2 with token := some t }
      let (sent, outcome) := sendAndAckGo attempts tid3 msg3 ackcode reads.tail
      (msg2.token :: sent, outcome)

/-- Method `OatmealPort.send_and_ack` with an explicit expected ACK opcode:
`n_retries + 1` attempts of send-then-read. -/
def send_and_ack (tokenid : Nat) (msg : Msg) (ackcode : List Nat)
    (n_retries : Nat) (reads : List (Option Msg)) :
    List (Option (List Nat)) × Except PortErr Msg :=
  sendAndAckGo (n_retries + 1) tokenid msg ackcode reads

/-- Bytes of an ASCII string literal, for readable concrete statements. -/
def s2b (s : String) : List Nat := s.toList.map Char.toNat

/-- Range facts about the checkbyte mapping, shared by the checkbyte claim
and the streaming proofs. -/
theorem checkbyte_range (n : Nat) :
    33 ≤ checkbyte_uint16_to_ascii n ∧ checkbyte_uint16_to_ascii n ≤ 126 ∧
    checkbyte_uint16_to_ascii n ≠ 60 ∧ checkbyte_uint16_to_ascii n ≠ 62 := by
  unfold checkbyte_uint16_to_ascii FRAME_START_BYTE FRAME_END_BYTE
  have hk : n % 65536 % (127 - 33 - 2) < 92 := Nat.mod_lt _ (by norm_num)
  dsimp only
  split_ifs <;> omega

/-- Claim C6: for every non-negative integer, the checkbyte mapping
`checkbyte_uint16_to_ascii` lands in the printable range 33..126, never on
`<` (60), `>` (62) or a whitespace byte; and both the length checkbyte and
the content checkbyte are produced through this one mapping. -/
theorem c6_checkbyte_printable (n : Nat) (frame : List Nat) :
    (33 ≤ checkbyte_uint16_to_ascii n ∧ checkbyte_uint16_to_ascii n ≤ 126 ∧
     checkbyte_uint16_to_ascii n ≠ 60 ∧ checkbyte_uint16_to_ascii n ≠ 62 ∧
     isSpaceByte (checkbyte_uint16_to_ascii n) = false) ∧
    length_checksum n = checkbyte_uint16_to_ascii (n * 7) ∧
    calc_checksum frame = checkbyte_uint16_to_ascii (rollingHash frame) := by
  refine ⟨⟨(checkbyte_range n).1, (checkbyte_range n).2.1, (checkbyte_range n).2.2.1,
    (checkbyte_range n).2.2.2, ?_⟩, rfl, rfl⟩
  have h1 := (checkbyte_range n).1
  simp only [isSpaceByte, Bool.or_eq_false_iff, decide_eq_false_iff_not]
  omega

/-- Character-class validity of a whole dictionary key, as the spec's
regular expression `[A-Za-z0-9_]+` demands when read as matching the full
key: non-empty and every character in the class.  This is the spec-side
counterpart of `is_valid_dict_key` for comparison. -/
def spec_valid_dict_key (key : List Nat) : Bool :=
  !key.isEmpty && key.all isKeyChar

/-- Claim C5 (code bug): `is_valid_dict_key` accepts the key `a$` even
though `$` is outside `[A-Za-z0-9_]` — the source calls `re.match`, which
anchors only at the start of the string, so only the first character is
checked, contradicting the function docstring and the spec; consequently
the wire dictionary `(left brace)a$=1(right brace)` parses successfully. -/
theorem c5_dict_key_prefix_bug :
    is_valid_dict_key (s2b "a$") = true ∧
    spec_valid_dict_key (s2b "a$") = false ∧
    parse_args [123, 97, 36, 61, 49, 125] = .ok [.dict [([97, 36], .int 1)]] := by
  exact ⟨rfl, rfl, rfl⟩

/-- Claim C3: the two concrete encodings from the spec, byte-exact, and the
first is a 10-byte frame, the minimum frame length. -/
theorem c3_concrete_frames :
    Msg.encode ⟨s2b "DISR", some (s2b "XY"), []⟩ = .ok (s2b "<DISRXY>i_") ∧
    (s2b "<DISRXY>i_").length = MIN_FRAME_LEN ∧
    Msg.encode ⟨s2b "RUNR", some (s2b "aa"),
        [.real (s2b "1.23"), .bool true, .str (s2b "Hi!"),
         .list [.int 1, .int 2]]⟩ =
      .ok (s2b "<RUNRaa1.23,T,\"Hi!\",[1,2]>-b") := by
  exact ⟨rfl, rfl, rfl⟩

/-- Truth of "parsing raised `OatmealParseError`" for a parse result. -/
def raisesParseError {α : Type} : Except PErr α → Bool
  | .error .parse => true
  | _ => false

/-- Claim C9: each of the thirteen malformed argument strings from the spec
raises `OatmealParseError` in `_parse_args` (the two dictionary cases with
curly brackets are written as byte lists). -/
theorem c9_parse_failures :
    raisesParseError (parse_args (s2b "[")) = true ∧
    raisesParseError (parse_args (s2b "]")) = true ∧
    raisesParseError (parse_args (s2b "1,")) = true ∧
    raisesParseError (parse_args (s2b "[,2]")) = true ∧
    raisesParseError (parse_args (s2b "[4,5,]")) = true ∧
    raisesParseError (parse_args (s2b "[1,2]]")) = true ∧
    raisesParseError (parse_args (s2b "[[1,2]")) = true ∧
    raisesParseError (parse_args (s2b "1,,3")) = true ∧
    raisesParseError (parse_args (s2b "[1]3")) = true ∧
    raisesParseError (parse_args (s2b ",]")) = true ∧
    raisesParseError (parse_args [123, 49, 50, 51, 125]) = true ∧
    raisesParseError (parse_args [123, 97, 61, 49, 44, 98, 61, 50, 44, 125]) = true ∧
    raisesParseError (parse_args [123, 34, 97, 34, 61, 49, 125]) = true := by
  exact ⟨rfl, rfl, rfl, rfl, rfl, rfl, rfl, rfl, rfl, rfl, rfl, rfl, rfl⟩

theorem getLast?_cons_of_some {α : Type} (a x : α) (l : List α)
    (h : l.getLast? = some x) : (a :: l).getLast? = some x := by
  cases l with
  | nil => simp at h
  | cons b t => rw [List.getLast?_cons_cons]; exact h

theorem sendAndAckGo_ok (attempts tokenid : Nat) (msg : Msg) (ackcode : List Nat)
    (reads : List (Option Msg)) (res : Msg)
    (h : (sendAndAckGo attempts tokenid msg ackcode reads).2 = .ok res) :
    res.opcode = ackcode ∧
    (sendAndAckGo attempts tokenid msg ackcode reads).1.getLast? = some res.token := by
  induction attempts generalizing tokenid msg reads with
  | zero => simp [sendAndAckGo] at h
  | succ n ih =>
    match hr : reads with
    | (some r) :: rest =>
      by_cases hc : r.opcode = ackcode ∧ r.token = (sendAssign tokenid msg).1.token
      · simp only [sendAndAckGo, List.head?, hc, and_self, if_pos] at h ⊢
        obtain ⟨h1, h2⟩ := hc
        cases h
        exact ⟨h1, by rw [h2]; simp⟩
      · simp only [sendAndAckGo, List.head?, hc, if_neg, if_false] at h
        exact absurd h (by simp)
    | none :: rest =>
      simp only [sendAndAckGo, List.head?, List.tail_cons] at h ⊢
      obtain ⟨h1, h2⟩ := ih _ _ _ h
      exact ⟨h1, getLast?_cons_of_some _ _ _ h2⟩
    | [] =>
      simp only [sendAndAckGo, List.head?, List.tail_nil] at h ⊢
      obtain ⟨h1, h2⟩ := ih _ _ _ h
      exact ⟨h1, getLast?_cons_of_some _ _ _ h2⟩

theorem sendAndAckGo_timeout (attempts tokenid : Nat) (msg : Msg)
    (ackcode : List Nat) (reads : List (Option Msg))
    (h : ∀ r ∈ reads, r = none) :
    (sendAndAckGo attempts tokenid msg ackcode reads).2 = .error .timeout ∧
    (sendAndAckGo attempts tokenid msg ackcode reads).1.length = attempts := by
  induction attempts generalizing tokenid msg reads with
  | zero => simp [sendAndAckGo]
  | succ n ih =>
    match hr : reads with
    | [] =>
      simp only [sendAndAckGo, List.head?, List.tail_nil]
      obtain ⟨h1, h2⟩ := ih ((next_token (sendAssign tokenid msg).2).2)
        { (sendAssign tokenid msg).1 with
            token := some (next_token (sendAssign tokenid msg).2).1 } []
        (by intro r hrr; simp at hrr)
      exact ⟨h1, by simpa using h2⟩
    | r0 :: rest =>
      have hr0 : r0 = none := h r0 (List.mem_cons_self _ _)
      subst hr0
      simp only [sendAndAckGo, List.head?, List.tail_cons]
      obtain ⟨h1, h2⟩ := ih ((next_token (sendAssign tokenid msg).2).2)
        { (sendAssign tokenid msg).1 with
            token := some (next_token (sendAssign tokenid msg).2).1 } rest
        (by intro r hrr; exact h r (List.mem_cons_of_mem _ hrr))
      exact ⟨h1, by simpa using h2⟩

/-- Claim C2: the contract of `send_and_ack` over a script of foreground
read outcomes (an entry `none` is a read that timed out).  (a) A returned
message has the expected ACK opcode and the token of the most recent
transmission.  (b) If the next foreground message read mismatches in
opcode or token, the exchange fails immediately with the protocol
violation error after a single transmission (the message was consumed from
the script and no retry happens).  (c) If every read times out, the
exchange raises the timeout error after `n_retries + 1` transmissions. -/
theorem c2_send_and_ack_contract (tokenid : Nat) (msg : Msg) (ackcode : List Nat)
    (n_retries : Nat) (reads : List (Option Msg)) :
    (∀ res, (send_and_ack tokenid msg ackcode n_retries reads).2 = .ok res →
      res.opcode = ackcode ∧
      (send_and_ack tokenid msg ackcode n_retries reads).1.getLast? = some res.token) ∧
    (∀ res rest, reads = some res :: rest →
      (res.opcode ≠ ackcode ∨ res.token ≠ (sendAssign tokenid msg).1.token) →
      send_and_ack tokenid msg ackcode n_retries reads =
        ([(sendAssign tokenid msg).1.token], .error .protocol)) ∧
    ((∀ r ∈ reads, r = none) →
      (send_and_ack tokenid msg ackcode n_retries reads).2 = .error .timeout ∧
      (send_and_ack tokenid msg ackcode n_retries reads).1.length = n_retries + 1) := by
  refine ⟨fun res h => sendAndAckGo_ok _ _ _ _ _ _ h, ?_, ?_⟩
  · intro res rest hreads hmis
    subst hreads
    have hc : ¬ (res.opcode = ackcode ∧ res.token = (sendAssign tokenid msg).1.token) := by
      rcases hmis with h1 | h1
      · exact fun hx => h1 hx.1
      · exact fun hx => h1 hx.2
    simp only [send_and_ack, sendAndAckGo, List.head?, hc, if_neg, if_false]
  · intro h
    exact sendAndAckGo_timeout _ _ _ _ _ h

/-- Witness for C2 at concrete inputs: a matching ACK is returned with the
sent token, a mismatching reply is a protocol violation after one send,
and two timed-out reads exhaust one retry. -/
theorem c2_send_and_ack_contract_witness :
    ((send_and_ack 0 ⟨s2b "RUNR", none, []⟩ (s2b "RUNA") 3
        [some ⟨s2b "RUNA", some (s2b "aa"), []⟩]).2 =
      .ok ⟨s2b "RUNA", some (s2b "aa"), []⟩ →
      (⟨s2b "RUNA", some (s2b "aa"), []⟩ : Msg).opcode = s2b "RUNA" ∧
      (send_and_ack 0 ⟨s2b "RUNR", none, []⟩ (s2b "RUNA") 3
        [some ⟨s2b "RUNA", some (s2b "aa"), []⟩]).1.getLast? = some (some (s2b "aa"))) ∧
    (send_and_ack 0 ⟨s2b "RUNR", none, []⟩ (s2b "RUNA") 3
        [some ⟨s2b "XXXA", some (s2b "aa"), []⟩] =
      ([some (s2b "aa")], .error .protocol)) ∧
    ((send_and_ack 0 ⟨s2b "RUNR", none, []⟩ (s2b "RUNA") 1 [none, none]).2 =
        .error .timeout ∧
      (send_and_ack 0 ⟨s2b "RUNR", none, []⟩ (s2b "RUNA") 1 [none, none]).1.length = 2) := by
  refine ⟨?_, ?_, ?_⟩
  · intro h
    exact (c2_send_and_ack_contract 0 ⟨s2b "RUNR", none, []⟩ (s2b "RUNA") 3
      [some ⟨s2b "RUNA", some (s2b "aa"), []⟩]).1 _ h
  · exact (c2_send_and_ack_contract 0 ⟨s2b "RUNR", none, []⟩ (s2b "RUNA") 3
      [some ⟨s2b "XXXA", some (s2b "aa"), []⟩]).2.1 _ _ rfl
      (by left; decide)
  · exact (c2_send_and_ack_contract 0 ⟨s2b "RUNR", none, []⟩ (s2b "RUNA") 1
      [none, none]).2.2 (by intro r hr; simpa using hr)

theorem asciiLetters_getD_inj :
    ∀ i, i < 52 → ∀ j, j < 52 → asciiLetters.getD i 0 = asciiLetters.getD j 0 → i = j := by
  decide

theorem next_token_fst_inj (a b : Nat) (ha : a < 2704) (hb : b < 2704)
    (h : (next_token a).1 = (next_token b).1) : a = b := by
  unfold next_token at h
  simp only [List.cons.injEq, and_true] at h
  obtain ⟨h1, h2⟩ := h
  have hd : a / 52 = b / 52 :=
    asciiLetters_getD_inj _ (by omega) _ (by omega) h1
  have hm : a % 52 = b % 52 :=
    asciiLetters_getD_inj _ (by omega) _ (by omega) h2
  omega

theorem next_token_consecutive_ne (t : Nat) (ht : t < 2704) :
    (next_token t).1 ≠ (next_token ((t + 1) % 2704)).1 := by
  intro h
  have := next_token_fst_inj t ((t + 1) % 2704) ht (by omega) h
  omega

theorem sendAndAckGo_tokens (attempts : Nat) (ackcode : List Nat) :
    ∀ (a c : Nat) (msg : Msg) (reads : List (Option Msg)),
    a < 2704 → msg.token = some (next_token a).1 → c = (a + 1) % 2704 →
    ∃ k, (sendAndAckGo attempts c msg ackcode reads).1 =
      (List.range k).map (fun i => some ((next_token ((a + i) % 2704)).1)) := by
  induction attempts with
  | zero =>
    intro a c msg reads ha hmsg hc
    exact ⟨0, by simp [sendAndAckGo]⟩
  | succ n ih =>
    intro a c msg reads ha hmsg hc
    have hsend : sendAssign c msg = (msg, c) := by
      unfold sendAssign; rw [hmsg]
    have hhead : ∀ x : Option (List Nat), x = msg.token →
        x = some ((next_token ((a + 0) % 2704)).1) := by
      intro x hx
      rw [hx, hmsg, Nat.add_zero, Nat.mod_eq_of_lt ha]
    have hnt2 : (next_token c).2 = ((a + 1) % 2704 + 1) % 2704 := by
      rw [hc]
      show ((a + 1) % 2704 + 1) % (52 * 52) = ((a + 1) % 2704 + 1) % 2704
      norm_num
    match hr : reads.head? with
    | some (some r) =>
      by_cases hcnd : r.opcode = ackcode ∧ r.token = msg.token
      · refine ⟨1, ?_⟩
        simp only [sendAndAckGo, hr, hsend, hcnd, and_self, if_pos]
        simp only [List.range_succ_eq_map, List.range_zero, List.map_nil,
          List.map_cons, List.cons.injEq, and_true]
        exact hhead _ rfl
      · refine ⟨1, ?_⟩
        simp only [sendAndAckGo, hr, hsend, hcnd, if_neg, if_false]
        simp only [List.range_succ_eq_map, List.range_zero, List.map_nil,
          List.map_cons, List.cons.injEq, and_true]
        exact hhead _ rfl
    | some none =>
      obtain ⟨k, hk⟩ := ih ((a + 1) % 2704) ((next_token c).2)
        { msg with token := some (next_token c).1 } reads.tail
        (by omega) (by rw [hc]) (by rw [hnt2])
      refine ⟨k + 1, ?_⟩
      simp only [sendAndAckGo, hr, hsend]
      rw [List.range_succ_eq_map, List.map_cons, List.map_map]
      congr 1
      · exact hhead _ rfl
      · rw [hk]
        apply List.map_congr_left
        intro i hi
        simp only [Function.comp_apply, Nat.succ_eq_add_one]
        have harith : ((a + 1) % 2704 + i) % 2704 = (a + (i + 1)) % 2704 := by omega
        rw [harith]
    | none =>
      obtain ⟨k, hk⟩ := ih ((a + 1) % 2704) ((next_token c).2)
        { msg with token := some (next_token c).1 } reads.tail
        (by omega) (by rw [hc]) (by rw [hnt2])
      refine ⟨k + 1, ?_⟩
      simp only [sendAndAckGo, hr, hsend]
      rw [List.range_succ_eq_map, List.map_cons, List.map_map]
      congr 1
      · exact hhead _ rfl
      · rw [hk]
        apply List.map_congr_left
        intro i hi
        simp only [Function.comp_apply, Nat.succ_eq_add_one]
        have harith : ((a + 1) % 2704 + i) % 2704 = (a + (i + 1)) % 2704 := by omega
        rw [harith]

theorem sendAndAckGo_none_eq (attempts t : Nat) (msg : Msg) (ackcode : List Nat)
    (reads : List (Option Msg)) (hmsg : msg.token = none) :
    sendAndAckGo (attempts + 1) t msg ackcode reads =
      sendAndAckGo (attempts + 1) ((next_token t).2)
        { msg with token := some (next_token t).1 } ackcode reads := by
  have h1 : sendAssign t msg =
      ({ msg with token := some (next_token t).1 }, (next_token t).2) := by
    unfold sendAssign; rw [hmsg]
  have h2 : sendAssign ((next_token t).2) { msg with token := some (next_token t).1 } =
      ({ msg with token := some (next_token t).1 }, (next_token t).2) := by
    unfold sendAssign; rfl
  simp only [sendAndAckGo, h1, h2]

theorem sendAndAck_tokens_of_none (attempts t : Nat) (msg : Msg) (ackcode : List Nat)
    (reads : List (Option Msg)) (hmsg : msg.token = none) (ht : t < 2704) :
    ∃ k, (sendAndAckGo attempts t msg ackcode reads).1 =
      (List.range k).map (fun i => some ((next_token ((t + i) % 2704)).1)) := by
  cases attempts with
  | zero => exact ⟨0, by simp [sendAndAckGo]⟩
  | succ n =>
    rw [sendAndAckGo_none_eq n t msg ackcode reads hmsg]
    exact sendAndAckGo_tokens (n + 1) ackcode t ((next_token t).2)
      { msg with token := some (next_token t).1 } reads ht rfl
      (by show (t + 1) % (52 * 52) = (t + 1) % 2704; norm_num)

theorem chain'_ne_token_range (t k : Nat) (ht : t < 2704) :
    List.Chain' (· ≠ ·)
      ((List.range k).map (fun i => some ((next_token ((t + i) % 2704)).1))) := by
  rw [List.chain'_map]
  cases k with
  | zero => simp
  | succ m =>
    rw [List.chain'_range_succ]
    intro i hi
    intro h
    have h2 : (next_token ((t + i) % 2704)).1 = (next_token ((t + (i + 1)) % 2704)).1 :=
      Option.some.inj h
    have h3 := next_token_fst_inj _ _ (by omega) (by omega) h2
    omega

/-- Claim C8: `next_token` issues tokens from a counter advancing by one
modulo 52 squared = 2704 over the 52 ASCII letters: each call returns the
two-letter token of the current counter value and advances the counter by
exactly one modulo 2704; two consecutive calls return distinct tokens; and
in a `send_and_ack` exchange whose message starts with no token (the port
assigns them), every retransmission carries a token distinct from the
previous attempt, whatever pattern of timeouts occurred. -/
theorem c8_token_counter (t : Nat) (ht : t < 2704) (msg : Msg)
    (hmsg : msg.token = none) (ackcode : List Nat) (n_retries : Nat)
    (reads : List (Option Msg)) :
    (next_token t).2 = (t + 1) % 2704 ∧
    (next_token t).1.length = 2 ∧
    (next_token t).1 ≠ (next_token ((next_token t).2)).1 ∧
    List.Chain' (· ≠ ·) (send_and_ack t msg ackcode n_retries reads).1 := by
  have hadv : (next_token t).2 = (t + 1) % 2704 := by
    show (t + 1) % (52 * 52) = (t + 1) % 2704; norm_num
  refine ⟨hadv, rfl, ?_, ?_⟩
  · rw [hadv]; exact next_token_consecutive_ne t ht
  · obtain ⟨k, hk⟩ := sendAndAck_tokens_of_none (n_retries + 1) t msg ackcode reads hmsg ht
    rw [send_and_ack, hk]
    exact chain'_ne_token_range t k ht

/-- Witness for C8 at concrete inputs: counter 2703 wraps to 0, the token
pair is distinct, and a retry after one timeout carries a fresh token. -/
theorem c8_token_counter_witness :
    (next_token 2703).2 = 2704 % 2704 ∧
    (next_token 2703).1.length = 2 ∧
    (next_token 2703).1 ≠ (next_token ((next_token 2703).2)).1 ∧
    List.Chain' (· ≠ ·)
      (send_and_ack 2703 ⟨s2b "RUNR", none, []⟩ (s2b "RUNA") 2 [none, none, none]).1 :=
  c8_token_counter 2703 (by norm_num) ⟨s2b "RUNR", none, []⟩ rfl (s2b "RUNA") 2
    [none, none, none]

/-- Counterexample to claim C4: a NUL byte received in state `WAIT_LEN` is
not appended to the buffer as checkbyte data — the byte loop handles NUL
before the state dispatch, so the buffer is cleared, the invalid-byte
counter incremented, and the parser returns to `WAIT_START` instead of
moving to `WAIT_CHK`. -/
theorem c4_nul_in_waitlen_counterexample :
    read_step ⟨s2b "<DISRXY>", .waitOnLength, Stats.init⟩ 0 DEFAULT_MAX_FRAME_LEN =
      .ok (⟨[], .waitOnStart, { Stats.init with n_invalid_bytes := 1 }⟩, none) ∧
    PState.waitOnStart ≠ PState.waitOnChecksum ∧
    ([] : List Nat) ≠ s2b "<DISRXY>" ++ [0] := by
  refine ⟨rfl, by decide, by decide⟩

/-- Claim C4 as amended: for every byte other than NUL and `<` received in
state `WAIT_LEN`, the parser appends the byte and moves to `WAIT_CHK`;
for every such byte received in `WAIT_CHK` it appends the byte, validates
the completed frame with `convert_frame`, resets the buffer and returns to
`WAIT_START` (yielding the message if the frame was valid).  A NUL byte
instead clears the buffer, counts an invalid byte and returns to
`WAIT_START`; a `<` byte starts a new frame: it counts a missing end byte,
resets the buffer to `<` alone and moves to `WAIT_END`. -/
theorem c4_waitlen_waitchk_amended (buf : List Nat) (stats : Stats) (b : Nat)
    (maxlen : Nat) (h0 : b ≠ 0) (h60 : b ≠ 60) :
    read_step ⟨buf, .waitOnLength, stats⟩ b maxlen =
      .ok (⟨buf ++ [b], .waitOnChecksum, stats⟩, none) ∧
    read_step ⟨buf, .waitOnChecksum, stats⟩ b maxlen =
      (convert_frame (buf ++ [b]) stats maxlen).map
        (fun p => (⟨[], .waitOnStart, p.2⟩, p.1)) ∧
    read_step ⟨buf, .waitOnLength, stats⟩ 0 maxlen =
      .ok (⟨[], .waitOnStart,
        { stats with n_invalid_bytes := stats.n_invalid_bytes + 1 }⟩, none) ∧
    read_step ⟨buf, .waitOnLength, stats⟩ 60 maxlen =
      .ok (⟨[60], .waitOnEnd,
        { stats with n_missing_end_byte := stats.n_missing_end_byte + 1 }⟩, none) := by
  refine ⟨?_, ?_, rfl, rfl⟩
  · simp [read_step, h0, h60, FRAME_START_BYTE]
  · simp only [read_step, h0, if_false, FRAME_START_BYTE, h60]
    cases hcf : convert_frame (buf ++ [b]) stats maxlen with
    | error e => simp [Except.map, hcf]
    | ok p => simp [Except.map, hcf]

/-- Witness for C4 at a concrete input: the length checkbyte of the frame
`<DISRXY>` followed by `i` and `_` is consumed in `WAIT_LEN`, and the
final checkbyte in `WAIT_CHK` completes and yields the frame. -/
theorem c4_waitlen_waitchk_amended_witness :
    read_step ⟨s2b "<DISRXY>", .waitOnLength, Stats.init⟩ 105 DEFAULT_MAX_FRAME_LEN =
      .ok (⟨s2b "<DISRXY>" ++ [105], .waitOnChecksum, Stats.init⟩, none) ∧
    read_step ⟨s2b "<DISRXY>", .waitOnChecksum, Stats.init⟩ 105 DEFAULT_MAX_FRAME_LEN =
      (convert_frame (s2b "<DISRXY>" ++ [105]) Stats.init DEFAULT_MAX_FRAME_LEN).map
        (fun p => (⟨[], .waitOnStart, p.2⟩, p.1)) ∧
    read_step ⟨s2b "<DISRXY>", .waitOnLength, Stats.init⟩ 0 DEFAULT_MAX_FRAME_LEN =
      .ok (⟨[], .waitOnStart,
        { Stats.init with n_invalid_bytes := Stats.init.n_invalid_bytes + 1 }⟩, none) ∧
    read_step ⟨s2b "<DISRXY>", .waitOnLength, Stats.init⟩ 60 DEFAULT_MAX_FRAME_LEN =
      .ok (⟨[60], .waitOnEnd,
        { Stats.init with n_missing_end_byte := Stats.init.n_missing_end_byte + 1 }⟩,
        none) :=
  c4_waitlen_waitchk_amended (s2b "<DISRXY>") Stats.init 105 DEFAULT_MAX_FRAME_LEN
    (by decide) (by decide)

/-- Characters that can appear in a 6-significant-figure decimal float
numeral: digits, signs, the point and the exponent letter. -/
def isFloatChar (b : Nat) : Bool :=
  isDigitByte b || b = 43 || b = 45 || b = 46 || b = 101

/-- The float precondition of the round-trip property: the argument's wire
numeral is a non-empty decimal form (so not `inf`/`nan`), is not read back as
an integer, and is accepted by `float()` — i.e. the 6-sig-fig numeral
re-parses to the same float. -/
def floatOk (s : List Nat) : Bool :=
  !s.isEmpty && s.all isFloatChar && (pyParseInt s).isNone && pyFloatAccepts s

/-- Strict ascending byte order of dict keys (the claim's precondition that
dictionaries are already in sorted-key form; strictness reflects key
uniqueness in a Python dict). -/
def sortedKeys : List (List Nat × Value) → Bool
  | [] => true
  | [_] => true
  | a :: b :: r => bytesLt a.1 b.1 && sortedKeys (b :: r)

mutual

/-- Values of the spec's data model (§3) within the round-trip
preconditions: floats survive the 6-sig-fig round trip, text is valid
UTF-8, dictionary keys are in the full character class and strictly
sorted, and Python tuples (which are outside the spec's Value union) do
not occur. -/
def wfValue : Value → Bool
  | .int _ => true
  | .real s => floatOk s
  | .bool _ => true
  | .null => true
  | .str s => isValidUtf8 s
  | .bytes _ => true
  | .list xs => wfValues xs
  | .tuple _ => false
  | .dict kvs => sortedKeys kvs && wfKvs kvs

/-- Well-formedness of an argument list. -/
def wfValues : List Value → Bool
  | [] => true
  | v :: vs => wfValue v && wfValues vs

/-- Well-formedness of dict entries: spec-valid key and well-formed value. -/
def wfKvs : List (List Nat × Value) → Bool
  | [] => true
  | (k, v) :: r => spec_valid_dict_key k && wfValue v && wfKvs r

end

/-- Well-formedness of a message per the spec's data model: valid opcode,
assigned valid token, well-formed args. -/
def wfMsg (m : Msg) : Bool :=
  is_valid_opcode m.opcode &&
  (match m.token with | some t => is_valid_token t | none => false) &&
  wfValues m.args

theorem spec_key_valid (k : List Nat) (h : spec_valid_dict_key k = true) :
    is_valid_dict_key k = true := by
  cases k with
  | nil => simp [spec_valid_dict_key] at h
  | cons c r =>
    simp only [spec_valid_dict_key, Bool.and_eq_true, List.all_cons] at h
    simp only [is_valid_dict_key]
    exact h.2.1

mutual

theorem wf_validateArg : (v : Value) → wfValue v = true → validateArg v = true
  | .int _, _ => rfl
  | .real _, _ => rfl
  | .bool _, _ => rfl
  | .null, _ => rfl
  | .str _, _ => rfl
  | .bytes _, _ => rfl
  | .list xs, h => wf_validateArgs xs h
  | .tuple _, h => by simp [wfValue] at h
  | .dict kvs, h => by
    simp only [wfValue, Bool.and_eq_true] at h
    exact wf_validateKvs kvs h.2

theorem wf_validateArgs : (xs : List Value) → wfValues xs = true → validateArgs xs = true
  | [], _ => rfl
  | v :: vs, h => by
    simp only [wfValues, Bool.and_eq_true] at h
    simp only [validateArgs, Bool.and_eq_true]
    exact ⟨wf_validateArg v h.1, wf_validateArgs vs h.2⟩

theorem wf_validateKvs : (kvs : List (List Nat × Value)) → wfKvs kvs = true →
    validateKvs kvs = true
  | [], _ => rfl
  | (k, v) :: r, h => by
    simp only [wfKvs, Bool.and_eq_true] at h
    simp only [validateKvs, Bool.and_eq_true]
    exact ⟨⟨spec_key_valid k h.1.1, wf_validateArg v h.1.2⟩, wf_validateKvs r h.2⟩

end

theorem dropWhile_eq_self {p : Nat → Bool} {l : List Nat}
    (h : ∀ b ∈ l, p b = false) : l.dropWhile p = l := by
  cases l with
  | nil => rfl
  | cons a t =>
    rw [List.dropWhile_cons]
    simp [h a (List.mem_cons_self a t)]

theorem trimWs_eq_self {l : List Nat} (h : ∀ b ∈ l, isSpaceByte b = false) :
    trimWs l = l := by
  unfold trimWs
  rw [dropWhile_eq_self h, dropWhile_eq_self (by simpa using h), List.reverse_reverse]

theorem takeWhile_append_of_all {p : Nat → Bool} {l t : List Nat}
    (h : ∀ b ∈ l, p b = true) : (l ++ t).takeWhile p = l ++ t.takeWhile p := by
  induction l with
  | nil => rfl
  | cons a r ih =>
    have h1 : p a = true := h a (List.mem_cons_self a r)
    have h2 := ih (fun b hb => h b (List.mem_cons_of_mem a hb))
    simp [List.takeWhile_cons, h1, h2]

theorem takeWhile_cons_false {p : Nat → Bool} {a : Nat} {t : List Nat}
    (h : p a = false) : (a :: t).takeWhile p = [] := by
  rw [List.takeWhile_cons]
  simp [h]

theorem digitsVal_append_singleton (l : List Nat) (d : Nat) :
    digitsVal (l ++ [d]) = digitsVal l * 10 + (d - 48) := by
  simp [digitsVal, List.foldl_append]

theorem natToDecGo_spec (fuel : Nat) : ∀ n, n < fuel →
    natToDecGo fuel n ≠ [] ∧ (∀ b ∈ natToDecGo fuel n, isDigitByte b = true) ∧
    digitsVal (natToDecGo fuel n) = n := by
  induction fuel with
  | zero => intro n hn; omega
  | succ f ih =>
    intro n hn
    by_cases h10 : n < 10
    · refine ⟨by simp [natToDecGo, h10], ?_, ?_⟩
      · intro b hb
        simp only [natToDecGo, h10, if_pos, List.mem_singleton] at hb
        subst hb
        simp [isDigitByte]
        omega
      · simp only [natToDecGo, h10, if_pos]
        simp [digitsVal]
    · have hlt : n / 10 < f := by omega
      obtain ⟨h1, h2, h3⟩ := ih (n / 10) hlt
      refine ⟨by simp [natToDecGo, h10], ?_, ?_⟩
      · intro b hb
        simp only [natToDecGo, h10, if_neg, not_false_iff, List.mem_append,
          List.mem_singleton] at hb
        rcases hb with hb | hb
        · exact h2 b hb
        · subst hb
          simp [isDigitByte]
          omega
      · simp only [natToDecGo, h10, if_neg, not_false_iff]
        rw [digitsVal_append_singleton, h3]
        omega

theorem natToDec_spec (n : Nat) :
    natToDec n ≠ [] ∧ (∀ b ∈ natToDec n, isDigitByte b = true) ∧
    digitsVal (natToDec n) = n :=
  natToDecGo_spec (n + 1) n (by omega)

theorem digit_not_space {b : Nat} (h : isDigitByte b = true) : isSpaceByte b = false := by
  simp only [isDigitByte, Bool.and_eq_true, decide_eq_true_eq] at h
  simp only [isSpaceByte, Bool.or_eq_false_iff, decide_eq_false_iff_not]
  omega

theorem pyParseInt_intToDec (n : Int) : pyParseInt (intToDec n) = some n := by
  by_cases hneg : n < 0
  · obtain ⟨hne, hdig, hval⟩ := natToDec_spec n.natAbs
    have htrim : trimWs (45 :: natToDec n.natAbs) = 45 :: natToDec n.natAbs := by
      apply trimWs_eq_self
      intro b hb
      rcases List.mem_cons.mp hb with hb | hb
      · subst hb; rfl
      · exact digit_not_space (hdig b hb)
    simp only [intToDec, hneg, if_pos, pyParseInt, htrim]
    norm_num
    refine ⟨⟨hne, fun b hb => hdig b hb⟩, ?_⟩
    rw [hval]
    omega
  · obtain ⟨hne, hdig, hval⟩ := natToDec_spec n.toNat
    obtain ⟨c, ds, hcons⟩ := List.exists_cons_of_ne_nil hne
    have hall : (c :: ds).all isDigitByte = true := by
      rw [← hcons]; exact List.all_eq_true.mpr hdig
    have hc : isDigitByte c = true := hdig c (by rw [hcons]; exact List.mem_cons_self c ds)
    have hc48 : 48 ≤ c ∧ c ≤ 57 := by
      simpa [isDigitByte] using hc
    have htrim : trimWs (c :: ds) = c :: ds := by
      rw [← hcons]
      apply trimWs_eq_self
      intro b hb
      exact digit_not_space (hdig b hb)
    simp only [intToDec, hneg, if_neg, not_false_iff, pyParseInt, hcons, htrim]
    rw [if_neg (by omega : ¬ c = 43), if_neg (by omega : ¬ c = 45), if_pos hall]
    rw [← hcons, hval]
    congr 1
    omega

theorem decode_str_intToDec (n : Int) : decode_str (intToDec n) = .int n := by
  simp [decode_str, pyParseInt_intToDec]

theorem decode_str_real {s : List Nat} (h : floatOk s = true) :
    decode_str s = .real s := by
  simp only [floatOk, Bool.and_eq_true] at h
  have hnone : pyParseInt s = none := Option.isNone_iff_eq_none.mp h.1.2
  simp [decode_str, hnone, h.2]

theorem escapeByte_cases (b : Nat) :
    (escapeByte b = [b] ∧ b ≠ 92 ∧ b ≠ 34) ∨
    (∃ x, escapeByte b = [92, x] ∧ escapedByte x = some b) := by
  unfold escapeByte
  split_ifs with h1 h2 h3 h4 h5 h6 h7
  · subst h1; right; exact ⟨92, rfl, rfl⟩
  · subst h2; right; exact ⟨34, rfl, rfl⟩
  · subst h3; right; exact ⟨40, rfl, rfl⟩
  · subst h4; right; exact ⟨41, rfl, rfl⟩
  · subst h5; right; exact ⟨110, rfl, rfl⟩
  · subst h6; right; exact ⟨114, rfl, rfl⟩
  · subst h7; right; exact ⟨48, rfl, rfl⟩
  · left; exact ⟨rfl, h1, h2⟩

theorem decodeBytesGo_escape (s : List Nat) : ∀ (acc : List Nat) (i : Nat) (rest : List Nat),
    decodeBytesGo (escapeBytes s ++ 34 :: rest) false acc i =
      .ok (acc ++ s, i + (escapeBytes s).length + 1) := by
  induction s with
  | nil =>
    intro acc i rest
    simp [escapeBytes, decodeBytesGo]
  | cons b t ih =>
    intro acc i rest
    rcases escapeByte_cases b with ⟨heq, h92, h34⟩ | ⟨x, heq, hx⟩
    · have hshape : escapeBytes (b :: t) = b :: escapeBytes t := by
        simp [escapeBytes, heq]
      rw [hshape]
      simp only [List.cons_append, decodeBytesGo, Bool.false_eq_true, if_false,
        if_neg h92, if_neg h34, List.append_eq, List.length_cons]
      rw [ih (acc ++ [b]) (i + 1) rest]
      all_goals ((congr 2) <;> (first | rfl | omega | simp))
    · have hshape : escapeBytes (b :: t) = 92 :: x :: escapeBytes t := by
        simp [escapeBytes, heq]
      rw [hshape]
      simp only [List.cons_append, decodeBytesGo, Bool.false_eq_true, if_false,
        List.append_eq, List.length_cons, if_pos rfl, hx]
      rw [ih (acc ++ [b]) (i + 1 + 1) rest]
      norm_num
      omega

theorem decode_bytes_encode (s rest : List Nat) :
    decode_bytes (encode_bytes s ++ rest) =
      .ok (s, (encode_bytes s).length) := by
  have hshape : encode_bytes s ++ rest = 34 :: (escapeBytes s ++ 34 :: rest) := by
    simp [encode_bytes]
  rw [hshape]
  unfold decode_bytes
  simp only [List.drop_succ_cons, List.drop_zero]
  rw [decodeBytesGo_escape s [] 1 rest]
  simp [encode_bytes]
  omega

theorem encode_bytes_length_ge (s : List Nat) : 2 ≤ (encode_bytes s).length := by
  simp [encode_bytes]

theorem parse_single_item_str (s rest : List Nat) (hutf : isValidUtf8 s = true) :
    parse_single_item (encode_bytes s ++ rest) =
      .ok (.str s, (encode_bytes s).length) := by
  have hlen : 2 ≤ (encode_bytes s ++ rest).length := by
    rw [List.length_append]
    have := encode_bytes_length_ge s
    omega
  have hhead : (encode_bytes s ++ rest).head? = some 34 := by
    simp [encode_bytes]
  rw [parse_single_item, if_pos ⟨hlen, hhead⟩, decode_bytes_encode]
  simp [hutf]

theorem parse_single_item_blob (s rest : List Nat) :
    parse_single_item (48 :: encode_bytes s ++ rest) =
      .ok (.bytes s, (encode_bytes s).length + 1) := by
  have hne : ¬ (2 ≤ (48 :: encode_bytes s ++ rest).length ∧
      (48 :: encode_bytes s ++ rest).head? = some 34) := by
    rintro ⟨-, hh⟩
    simp at hh
  have htake : (48 :: encode_bytes s ++ rest).take 2 = [48, 34] := by
    simp [encode_bytes]
  have hlen3 : 3 ≤ (48 :: encode_bytes s ++ rest).length := by
    simp only [List.cons_append, List.length_cons, List.length_append]
    have := encode_bytes_length_ge s
    omega
  rw [parse_single_item, if_neg hne, if_pos ⟨hlen3, htake⟩]
  simp only [List.cons_append, List.drop_succ_cons, List.drop_zero]
  rw [decode_bytes_encode]

theorem parse_single_item_scalar (s rest : List Nat) (t : Nat)
    (hs : s ≠ [])
    (hall : ∀ b ∈ s, isTermByte b = false ∧ b ≤ 127 ∧ b ≠ 34)
    (hrest : rest.head? = some t) (hterm : isTermByte t = true) :
    parse_single_item (s ++ rest) = .ok (decode_str s, s.length) := by
  obtain ⟨c, s2, hcons⟩ := List.exists_cons_of_ne_nil hs
  obtain ⟨hc_term, hc_le, hc34⟩ := hall c (by rw [hcons]; exact List.mem_cons_self c s2)
  obtain ⟨rest1, hrest1⟩ : ∃ r1, rest = t :: r1 := by
    cases rest with
    | nil => simp at hrest
    | cons a r => simp at hrest; exact ⟨r, by rw [hrest]⟩
  subst hcons
  subst hrest1
  have hne1 : ¬ (2 ≤ ((c :: s2) ++ t :: rest1).length ∧
      ((c :: s2) ++ t :: rest1).head? = some 34) := by
    rintro ⟨-, hh⟩
    simp at hh
    exact hc34 hh
  have hne2 : ¬ (3 ≤ ((c :: s2) ++ t :: rest1).length ∧
      ((c :: s2) ++ t :: rest1).take 2 = [48, 34]) := by
    rintro ⟨-, hh⟩
    cases s2 with
    | nil =>
      simp at hh
      have ht34 : t = 34 := hh.2
      rw [ht34] at hterm
      simp [isTermByte] at hterm
    | cons c2 s3 =>
      simp at hh
      obtain ⟨h2, h3⟩ := hall c2 (List.mem_cons_of_mem c (List.mem_cons_self c2 s3))
      exact h3.2 hh.2
  have htok : ((c :: s2) ++ t :: rest1).takeWhile (fun b => !isTermByte b) = c :: s2 := by
    rw [takeWhile_append_of_all (fun b hb => by simp [(hall b hb).1])]
    rw [takeWhile_cons_false (by simp [hterm])]
    simp
  rw [parse_single_item, if_neg hne1, if_neg hne2]
  simp only [htok]
  rw [if_neg (by simp), if_pos (List.all_eq_true.mpr (fun b hb => by
    simp only [decide_eq_true_eq]
    exact (hall b hb).2.1))]

/-- Encoding of the items after the first in a list: each preceded by the
separator byte. -/
def encodeMid : List Value → List Nat
  | [] => []
  | v :: vs => 44 :: encode_val v ++ encodeMid vs

/-- Encoding of dict entries joined by separators (first entry included). -/
def dictList : List (List Nat × Value) → List Nat
  | [] => []
  | [(k, v)] => k ++ 61 :: encode_val v
  | (k, v) :: r => k ++ 61 :: encode_val v ++ 44 :: dictList r

/-- Encoding of the dict entries after the first: each preceded by the
separator byte. -/
def dictMid : List (List Nat × Value) → List Nat
  | [] => []
  | (k, v) :: r => 44 :: (k ++ 61 :: encode_val v) ++ dictMid r

theorem encodeList_cons_eq (v : Value) (vs : List Value) :
    encodeList (v :: vs) = encode_val v ++ encodeMid vs := by
  induction vs generalizing v with
  | nil => simp [encodeList, encodeMid]
  | cons w ws ih =>
    show encode_val v ++ 44 :: encodeList (w :: ws) = _
    rw [ih w]
    simp [encodeMid]

theorem dictList_cons_eq (k : List Nat) (v : Value) (r : List (List Nat × Value)) :
    dictList ((k, v) :: r) = (k ++ 61 :: encode_val v) ++ dictMid r := by
  induction r generalizing k v with
  | nil => simp [dictList, dictMid]
  | cons e ws ih =>
    obtain ⟨k2, v2⟩ := e
    show k ++ 61 :: encode_val v ++ 44 :: dictList ((k2, v2) :: ws) = _
    rw [ih k2 v2]
    simp [dictMid]

theorem bytesLt_irrefl (l : List Nat) : bytesLt l l = false := by
  induction l with
  | nil => rfl
  | cons a r ih => simp [bytesLt, ih]

theorem bytesLt_trans {a b c : List Nat} (h1 : bytesLt a b = true)
    (h2 : bytesLt b c = true) : bytesLt a c = true := by
  induction a generalizing b c with
  | nil =>
    cases c with
    | nil =>
      cases b with
      | nil => simp [bytesLt] at h1
      | cons y ys => simp [bytesLt] at h2
    | cons z zs => rfl
  | cons x xs ih =>
    cases b with
    | nil => simp [bytesLt] at h1
    | cons y ys =>
      cases c with
      | nil => simp [bytesLt] at h2
      | cons z zs =>
        simp only [bytesLt] at h1 h2 ⊢
        split_ifs at h1 h2 ⊢ with hxy hyx hyz hzy hxz hzx
        all_goals try rfl
        all_goals try omega
        all_goals try simp at h1
        all_goals try simp at h2
        · exact ih h1 h2
        all_goals omega

/-- Keys strictly greater than the head key, in a sorted run. -/
theorem sortedKeys_all_gt (e : List Nat × Value) (r : List (List Nat × Value))
    (h : sortedKeys (e :: r) = true) :
    ∀ p ∈ r, bytesLt e.1 p.1 = true := by
  induction r generalizing e with
  | nil => intro p hp; simp at hp
  | cons q r2 ih =>
    simp only [sortedKeys, Bool.and_eq_true] at h
    intro p hp
    rcases List.mem_cons.mp hp with hp | hp
    · subst hp; exact h.1
    · exact bytesLt_trans h.1 (ih q h.2 p hp)

theorem sortedKeys_tail (e : List Nat × Value) (r : List (List Nat × Value))
    (h : sortedKeys (e :: r) = true) : sortedKeys r = true := by
  cases r with
  | nil => rfl
  | cons q r2 =>
    simp only [sortedKeys, Bool.and_eq_true] at h
    exact h.2

theorem sortedKeys_nodup (kvs : List (List Nat × Value))
    (h : sortedKeys kvs = true) : (kvs.map Prod.fst).Nodup := by
  induction kvs with
  | nil => simp
  | cons e r ih =>
    rw [List.map_cons, List.nodup_cons]
    refine ⟨?_, ih (sortedKeys_tail e r h)⟩
    intro hmem
    obtain ⟨p, hp, hpk⟩ := List.mem_map.mp hmem
    have := sortedKeys_all_gt e r h p hp
    rw [hpk] at this
    rw [bytesLt_irrefl] at this
    exact Bool.noConfusion this

/-- Adjacent strict key order on encoded pairs. -/
def sortedPairsKeys : List (List Nat × List Nat) → Bool
  | [] => true
  | [_] => true
  | a :: b :: r => bytesLt a.1 b.1 && sortedPairsKeys (b :: r)

theorem encodeEntries_sorted (kvs : List (List Nat × Value))
    (h : sortedKeys kvs = true) : sortedPairsKeys (encodeEntries kvs) = true := by
  induction kvs with
  | nil => rfl
  | cons e r ih =>
    obtain ⟨k, v⟩ := e
    cases r with
    | nil => rfl
    | cons q r2 =>
      obtain ⟨k2, v2⟩ := q
      simp only [sortedKeys, Bool.and_eq_true] at h
      show sortedPairsKeys ((k, encode_val v) :: (k2, encode_val v2) :: encodeEntries r2) = true
      simp only [sortedPairsKeys, Bool.and_eq_true]
      exact ⟨h.1, ih h.2⟩

theorem sortPairs_sorted_id (l : List (List Nat × List Nat))
    (h : sortedPairsKeys l = true) : sortPairs l = l := by
  induction l with
  | nil => rfl
  | cons p r ih =>
    have hr : sortedPairsKeys r = true := by
      cases r with
      | nil => rfl
      | cons q r2 =>
        simp only [sortedPairsKeys, Bool.and_eq_true] at h
        exact h.2
    rw [sortPairs, ih hr]
    cases r with
    | nil => rfl
    | cons q r2 =>
      simp only [sortedPairsKeys, Bool.and_eq_true] at h
      simp [insertPair, h.1]

theorem encode_val_dict_sorted (kvs : List (List Nat × Value))
    (h : sortedKeys kvs = true) :
    encode_val (.dict kvs) = 123 :: dictList kvs ++ [125] := by
  show DICT_START_BYTE ::
      joinBytes ((sortPairs (encodeEntries kvs)).map (fun p => p.1 ++ 61 :: p.2)) ++
      [DICT_END_BYTE] = _
  rw [sortPairs_sorted_id _ (encodeEntries_sorted kvs h)]
  have hjoin : ∀ (l : List (List Nat × Value)),
      joinBytes ((encodeEntries l).map (fun p => p.1 ++ 61 :: p.2)) = dictList l := by
    intro l
    induction l with
    | nil => rfl
    | cons e r ih2 =>
      obtain ⟨k, v⟩ := e
      cases r with
      | nil => rfl
      | cons q r2 =>
        obtain ⟨k2, v2⟩ := q
        show (k ++ 61 :: encode_val v) ++
          44 :: joinBytes ((encodeEntries ((k2, v2) :: r2)).map (fun p => p.1 ++ 61 :: p.2)) = _
        rw [ih2]
        show _ = k ++ 61 :: encode_val v ++ 44 :: dictList ((k2, v2) :: r2)
        simp
  rw [hjoin]
  rfl

theorem intToDec_bytes (n : Int) : ∀ b ∈ intToDec n, isDigitByte b = true ∨ b = 45 := by
  intro b hb
  unfold intToDec at hb
  split_ifs at hb with hneg
  · rcases List.mem_cons.mp hb with hb | hb
    · right; exact hb
    · left; exact (natToDec_spec n.natAbs).2.1 b hb
  · left; exact (natToDec_spec n.toNat).2.1 b hb

theorem intToDec_ne_nil (n : Int) : intToDec n ≠ [] := by
  unfold intToDec
  split_ifs with hneg
  · simp
  · exact (natToDec_spec n.toNat).1

theorem int_byte_facts {b : Nat} (h : isDigitByte b = true ∨ b = 45) :
    isTermByte b = false ∧ b ≤ 127 ∧ b ≠ 34 ∧ b ≠ 91 ∧ b ≠ 123 ∧ b ≠ 93 ∧ b ≠ 125 := by
  simp only [isDigitByte, Bool.and_eq_true, decide_eq_true_eq] at h
  simp only [isTermByte, Bool.or_eq_false_iff, decide_eq_false_iff_not]
  omega

theorem float_byte_facts {b : Nat} (h : isFloatChar b = true) :
    isTermByte b = false ∧ b ≤ 127 ∧ b ≠ 34 ∧ b ≠ 91 ∧ b ≠ 123 ∧ b ≠ 93 ∧ b ≠ 125 := by
  simp only [isFloatChar, isDigitByte, Bool.or_eq_true, Bool.and_eq_true,
    decide_eq_true_eq] at h
  simp only [isTermByte, Bool.or_eq_false_iff, decide_eq_false_iff_not]
  omega

theorem key_byte_facts {b : Nat} (h : isKeyChar b = true) :
    b ≤ 127 ∧ b ≠ 61 ∧ b ≠ 125 ∧ b ≠ 44 ∧ b ≠ 123 ∧ b ≠ 93 := by
  simp only [isKeyChar, isDigitByte, Bool.or_eq_true, Bool.and_eq_true,
    decide_eq_true_eq] at h
  omega

theorem floatOk_facts {s : List Nat} (h : floatOk s = true) :
    s ≠ [] ∧ ∀ b ∈ s, isFloatChar b = true := by
  simp only [floatOk, Bool.and_eq_true] at h
  refine ⟨?_, ?_⟩
  · intro hnil
    rw [hnil] at h
    simp at h
  · exact fun b hb => List.all_eq_true.mp h.1.1.2 b hb

theorem encode_val_shape (v : Value) (h : wfValue v = true) :
    ∃ c cs, encode_val v = c :: cs ∧ c ≠ 93 ∧ c ≠ 125 := by
  cases v with
  | int n =>
    obtain ⟨c, cs, hcons⟩ := List.exists_cons_of_ne_nil (intToDec_ne_nil n)
    have hc := intToDec_bytes n c (by rw [hcons]; exact List.mem_cons_self c cs)
    obtain ⟨-, -, -, -, -, h93, h125⟩ := int_byte_facts hc
    refine ⟨c, cs, ?_, h93, h125⟩
    rw [show encode_val (.int n) = intToDec n by simp [encode_val], hcons]
  | real s =>
    obtain ⟨hne, hall⟩ := floatOk_facts h
    obtain ⟨c, cs, hcons⟩ := List.exists_cons_of_ne_nil hne
    have hc := hall c (by rw [hcons]; exact List.mem_cons_self c cs)
    obtain ⟨-, -, -, -, -, h93, h125⟩ := float_byte_facts hc
    refine ⟨c, cs, ?_, h93, h125⟩
    rw [show encode_val (.real s) = s by simp [encode_val], hcons]
  | bool b =>
    cases b
    · exact ⟨70, [], by simp [encode_val], by omega, by omega⟩
    · exact ⟨84, [], by simp [encode_val], by omega, by omega⟩
  | null => exact ⟨78, [], by simp [encode_val], by omega, by omega⟩
  | str s =>
    exact ⟨34, escapeBytes s ++ [34], by simp [encode_val, encode_bytes], by omega, by omega⟩
  | bytes b =>
    exact ⟨48, encode_bytes b, by simp [encode_val], by omega, by omega⟩
  | list xs =>
    exact ⟨91, encodeList xs ++ [93],
      by simp [encode_val, LIST_START_BYTE, LIST_END_BYTE], by omega, by omega⟩
  | tuple xs => simp [wfValue] at h
  | dict kvs =>
    exact ⟨123,
      joinBytes ((sortPairs (encodeEntries kvs)).map (fun p => p.1 ++ 61 :: p.2)) ++ [125],
      by simp [encode_val, DICT_START_BYTE, DICT_END_BYTE], by omega, by omega⟩

theorem encode_val_len_pos (v : Value) (h : wfValue v = true) :
    1 ≤ (encode_val v).length := by
  obtain ⟨c, cs, hcons, -, -⟩ := encode_val_shape v h
  rw [hcons]
  simp

theorem parse_arg_of_single (g : Nat) (buf : List Nat) (c : Nat) (v : Value) (n : Nat)
    (hh : buf.head? = some c) (h91 : c ≠ 91) (h123 : c ≠ 123)
    (hps : parse_single_item buf = .ok (v, n)) (hn : n ≠ 0) :
    parse_arg (g + 1) buf = .ok (v, n) := by
  cases buf with
  | nil => simp at hh
  | cons b bs =>
    have hb : b = c := by simpa using hh
    subst hb
    simp [parse_arg, LIST_START_BYTE, DICT_START_BYTE, h91, h123, hps, hn]

theorem parse_arg_scalar (g : Nat) (s rest : List Nat) (t : Nat)
    (hs : s ≠ [])
    (hall : ∀ b ∈ s, isTermByte b = false ∧ b ≤ 127 ∧ b ≠ 34 ∧ b ≠ 91 ∧ b ≠ 123)
    (hrest : rest.head? = some t) (hterm : isTermByte t = true) :
    parse_arg (g + 1) (s ++ rest) = .ok (decode_str s, s.length) := by
  obtain ⟨c, cs, hcons⟩ := List.exists_cons_of_ne_nil hs
  obtain ⟨-, -, -, h91, h123⟩ := hall c (by rw [hcons]; exact List.mem_cons_self c cs)
  have hhead : (s ++ rest).head? = some c := by
    rw [hcons]; rfl
  refine parse_arg_of_single g (s ++ rest) c (decode_str s) s.length hhead h91 h123 ?_ ?_
  · exact parse_single_item_scalar s rest t hs
      (fun b hb => ⟨(hall b hb).1, (hall b hb).2.1, (hall b hb).2.2.1⟩) hrest hterm
  · rw [hcons]; simp

theorem encodeMid_93_head (vs : List Value) (rest : List Nat) :
    ∃ t, (encodeMid vs ++ 93 :: rest).head? = some t ∧ isTermByte t = true := by
  cases vs with
  | nil => exact ⟨93, rfl, rfl⟩
  | cons v r => exact ⟨44, rfl, rfl⟩

theorem dictMid_125_head (kvs : List (List Nat × Value)) (rest : List Nat) :
    ∃ t, (dictMid kvs ++ 125 :: rest).head? = some t ∧ isTermByte t = true := by
  cases kvs with
  | nil => exact ⟨125, rfl, rfl⟩
  | cons e r => obtain ⟨k, v⟩ := e; exact ⟨44, rfl, rfl⟩

theorem drop_len_append {α : Type} (l1 l2 : List α) :
    (l1 ++ l2).drop l1.length = l2 := by
  induction l1 with
  | nil => rfl
  | cons a r ih => simpa using ih

theorem drop_key_eq (k : List Nat) (x : List Nat) :
    (k ++ 61 :: x).drop (k.length + 1) = x := by
  have : k ++ 61 :: x = (k ++ [61]) ++ x := by simp
  rw [this]
  have hlen : (k ++ [61]).length = k.length + 1 := by simp
  rw [← hlen, drop_len_append]

theorem dictInsert_not_mem (d : List (List Nat × Value)) (k : List Nat) (v : Value)
    (h : k ∉ d.map Prod.fst) : dictInsert d k v = d ++ [(k, v)] := by
  induction d with
  | nil => rfl
  | cons e r ih =>
    obtain ⟨k0, v0⟩ := e
    simp only [List.map_cons, List.mem_cons] at h
    push_neg at h
    simp only [dictInsert, if_neg (Ne.symm h.1)]
    rw [ih h.2]
    simp

/-- Helper: equality of successful parser results from equality of the
component value and count. -/
theorem ok_pair_eq {α : Type} {v w : α} {m n : Nat} (hv : v = w) (h : m = n) :
    (Except.ok (v, m) : Except PErr (α × Nat)) = .ok (w, n) := by rw [hv, h]

set_option maxHeartbeats 1600000 in
/-- Parsing inverts encoding: the six mutually-inductive statements cover a
single argument, the items of a list (first item and subsequent items) and
the entries of a dict (first entry, subsequent entries, one entry).  Fuel
is bounded by the number of encoded bytes. -/
theorem parse_encode_roundtrip (fuel : Nat) :
    (∀ (v : Value) (rest : List Nat) (t : Nat),
      wfValue v = true → rest.head? = some t → isTermByte t = true →
      (encode_val v).length ≤ fuel →
      parse_arg fuel (encode_val v ++ rest) = .ok (v, (encode_val v).length)) ∧
    (∀ (items : List Value) (rest : List Nat),
      wfValues items = true → (encodeList items).length + 1 ≤ fuel →
      parse_list_go fuel (encodeList items ++ 93 :: rest) [] =
        .ok (items, (encodeList items).length + 1)) ∧
    (∀ (items acc : List Value) (rest : List Nat),
      wfValues items = true → acc ≠ [] → (encodeMid items).length + 1 ≤ fuel →
      parse_list_go fuel (encodeMid items ++ 93 :: rest) acc =
        .ok (acc ++ items, (encodeMid items).length + 1)) ∧
    (∀ (kvs : List (List Nat × Value)) (rest : List Nat),
      wfKvs kvs = true → (kvs.map Prod.fst).Nodup →
      (dictList kvs).length + 1 ≤ fuel →
      parse_dict_go fuel (dictList kvs ++ 125 :: rest) [] =
        .ok (kvs, (dictList kvs).length + 1)) ∧
    (∀ (kvs d : List (List Nat × Value)) (rest : List Nat),
      wfKvs kvs = true → (d.map Prod.fst ++ kvs.map Prod.fst).Nodup → d ≠ [] →
      (dictMid kvs).length + 1 ≤ fuel →
      parse_dict_go fuel (dictMid kvs ++ 125 :: rest) d =
        .ok (d ++ kvs, (dictMid kvs).length + 1)) ∧
    (∀ (k : List Nat) (v : Value) (kvs2 d : List (List Nat × Value)) (rest : List Nat),
      spec_valid_dict_key k = true → wfValue v = true → wfKvs kvs2 = true →
      (d.map Prod.fst ++ k :: kvs2.map Prod.fst).Nodup →
      (k ++ 61 :: encode_val v ++ dictMid kvs2).length ≤ fuel →
      parse_dict_entry fuel (k ++ 61 :: encode_val v ++ dictMid kvs2 ++ 125 :: rest) d =
        .ok (d ++ (k, v) :: kvs2,
          (k ++ 61 :: encode_val v ++ dictMid kvs2).length + 1)) := by
  induction fuel using Nat.strong_induction_on with
  | _ fuel ih =>
  match fuel with
  | 0 =>
    refine ⟨?_, ?_, ?_, ?_, ?_, ?_⟩
    · intro v rest t hwf hrh hterm hlen
      have := encode_val_len_pos v hwf
      omega
    · intro items rest hwf hlen; omega
    · intro items acc rest hwf hacc hlen; omega
    · intro kvs rest hwf hnd hlen; omega
    · intro kvs d rest hwf hnd hdne hlen; omega
    · intro k v kvs2 d rest hkey hwfv hwf2 hnd hlen
      have hk1 : 1 ≤ k.length := by
        cases k with
        | nil => simp [spec_valid_dict_key] at hkey
        | cons a r => simp
      simp only [List.length_append, List.length_cons] at hlen
      omega
  | g + 1 =>
    obtain ⟨A_ih, B0_ih, B1_ih, D0_ih, D1_ih, DE_ih⟩ := ih g (by omega)
    have Apart : ∀ (v : Value) (rest : List Nat) (t : Nat),
        wfValue v = true → rest.head? = some t → isTermByte t = true →
        (encode_val v).length ≤ g + 1 →
        parse_arg (g + 1) (encode_val v ++ rest) = .ok (v, (encode_val v).length) := by
      intro v rest t hwf hrh hterm hlen
      cases v with
      | int n =>
        have henc : encode_val (.int n) = intToDec n := by simp [encode_val]
        rw [henc]
        rw [parse_arg_scalar g (intToDec n) rest t (intToDec_ne_nil n)
          (fun b hb => by
            obtain ⟨h1, h2, h3, h4, h5, -, -⟩ := int_byte_facts (intToDec_bytes n b hb)
            exact ⟨h1, h2, h3, h4, h5⟩) hrh hterm]
        rw [decode_str_intToDec]
      | real s =>
        have hfok : floatOk s = true := by simpa [wfValue] using hwf
        have henc : encode_val (.real s) = s := by simp [encode_val]
        rw [henc]
        obtain ⟨hne, hall⟩ := floatOk_facts hfok
        rw [parse_arg_scalar g s rest t hne
          (fun b hb => by
            obtain ⟨h1, h2, h3, h4, h5, -, -⟩ := float_byte_facts (hall b hb)
            exact ⟨h1, h2, h3, h4, h5⟩) hrh hterm]
        rw [decode_str_real hfok]
      | bool tb =>
        cases tb
        · have henc : encode_val (.bool false) = [70] := by simp [encode_val]
          rw [henc]
          rw [parse_arg_scalar g [70] rest t (by simp)
            (fun b hb => by
              have hb70 : b = 70 := by simpa using hb
              subst hb70
              exact ⟨rfl, by omega, by omega, by omega, by omega⟩) hrh hterm]
          rfl
        · have henc : encode_val (.bool true) = [84] := by simp [encode_val]
          rw [henc]
          rw [parse_arg_scalar g [84] rest t (by simp)
            (fun b hb => by
              have hb84 : b = 84 := by simpa using hb
              subst hb84
              exact ⟨rfl, by omega, by omega, by omega, by omega⟩) hrh hterm]
          rfl
      | null =>
        have henc : encode_val Value.null = [78] := by simp [encode_val]
        rw [henc]
        rw [parse_arg_scalar g [78] rest t (by simp)
          (fun b hb => by
            have hb78 : b = 78 := by simpa using hb
            subst hb78
            exact ⟨rfl, by omega, by omega, by omega, by omega⟩) hrh hterm]
        rfl
      | str s =>
        have hutf : isValidUtf8 s = true := by simpa [wfValue] using hwf
        have henc : encode_val (.str s) = encode_bytes s := by simp [encode_val]
        rw [henc]
        refine parse_arg_of_single g _ 34 _ _ (by simp [encode_bytes]) (by omega)
          (by omega) (parse_single_item_str s rest hutf) ?_
        have := encode_bytes_length_ge s
        omega
      | bytes b =>
        have henc : encode_val (.bytes b) = 48 :: encode_bytes b := by simp [encode_val]
        rw [henc]
        have hshape : (48 :: encode_bytes b) ++ rest = 48 :: encode_bytes b ++ rest := by
          simp
        rw [hshape]
        have hlen2 : (48 :: encode_bytes b).length = (encode_bytes b).length + 1 := by
          simp
        rw [hlen2]
        exact parse_arg_of_single g _ 48 _ _ (by simp) (by omega) (by omega)
          (parse_single_item_blob b rest) (by omega)
      | list xs =>
        have hwfl : wfValues xs = true := by simpa [wfValue] using hwf
        have henc : encode_val (.list xs) = 91 :: encodeList xs ++ [93] := by
          simp [encode_val, LIST_START_BYTE, LIST_END_BYTE]
        rw [henc] at hlen ⊢
        have hb : (91 :: encodeList xs ++ [93]) ++ rest =
            91 :: (encodeList xs ++ 93 :: rest) := by simp
        rw [hb]
        have hlen3 : (91 :: encodeList xs ++ [93]).length =
            (encodeList xs).length + 2 := by simp
        rw [hlen3] at hlen ⊢
        have hB0 := B0_ih xs rest hwfl (by omega)
        simp only [parse_arg, LIST_START_BYTE, DICT_START_BYTE, List.drop_one,
          List.tail_cons]
        simp only [hB0]
        exact ok_pair_eq rfl (by omega)
      | tuple xs => simp [wfValue] at hwf
      | dict kvs =>
        have hx : sortedKeys kvs = true ∧ wfKvs kvs = true := by
          simpa [wfValue] using hwf
        have henc := encode_val_dict_sorted kvs hx.1
        rw [henc] at hlen ⊢
        have hb : (123 :: dictList kvs ++ [125]) ++ rest =
            123 :: (dictList kvs ++ 125 :: rest) := by simp
        rw [hb]
        have hlen3 : (123 :: dictList kvs ++ [125]).length =
            (dictList kvs).length + 2 := by simp
        rw [hlen3] at hlen ⊢
        have hD0 := D0_ih kvs rest hx.2 (sortedKeys_nodup kvs hx.1) (by omega)
        simp only [parse_arg, LIST_START_BYTE, DICT_START_BYTE, List.drop_one,
          List.tail_cons]
        simp only [hD0]
        exact ok_pair_eq rfl (by omega)
    refine ⟨Apart, ?_, ?_, ?_, ?_, ?_⟩
    · -- B0: first item of a list
      intro items rest hwf hlen
      cases items with
      | nil =>
        have he : encodeList ([] : List Value) = [] := by simp [encodeList]
        rw [he] at hlen ⊢
        simp [parse_list_go, LIST_END_BYTE]
      | cons v vs =>
        have hx : wfValue v = true ∧ wfValues vs = true := by
          simpa [wfValues] using hwf
        rw [encodeList_cons_eq] at hlen ⊢
        obtain ⟨c, cs, hcons, h93, -⟩ := encode_val_shape v hx.1
        have hb : (encode_val v ++ encodeMid vs) ++ 93 :: rest =
            c :: (cs ++ (encodeMid vs ++ 93 :: rest)) := by
          rw [hcons]; simp
        rw [hb]
        simp only [parse_list_go, LIST_END_BYTE, SEP_BYTE]
        rw [if_neg h93, if_neg (by simp : ¬ 0 < ([] : List Value).length)]
        have hb2 : c :: (cs ++ (encodeMid vs ++ 93 :: rest)) =
            encode_val v ++ (encodeMid vs ++ 93 :: rest) := by
          rw [hcons]; simp
        rw [hb2]
        obtain ⟨t2, hh2, ht2⟩ := encodeMid_93_head vs rest
        have hlenv : 1 ≤ (encode_val v).length := encode_val_len_pos v hx.1
        have hlen4 : (encode_val v ++ encodeMid vs).length =
            (encode_val v).length + (encodeMid vs).length := by simp
        rw [hlen4] at hlen ⊢
        have hA := A_ih v (encodeMid vs ++ 93 :: rest) t2 hx.1 hh2 ht2 (by omega)
        have hB1 := B1_ih vs [v] rest hx.2 (by simp) (by omega)
        simp only [hA, drop_len_append, List.nil_append, hB1]
        exact ok_pair_eq (by simp) (by omega)
    · -- B1: subsequent items of a list
      intro items acc rest hwf hacc hlen
      cases items with
      | nil =>
        have he : encodeMid ([] : List Value) = [] := rfl
        rw [he] at hlen ⊢
        simp [parse_list_go, LIST_END_BYTE]
      | cons v vs =>
        have hx : wfValue v = true ∧ wfValues vs = true := by
          simpa [wfValues] using hwf
        have he : encodeMid (v :: vs) ++ 93 :: rest =
            44 :: (encode_val v ++ (encodeMid vs ++ 93 :: rest)) := by
          show (44 :: encode_val v ++ encodeMid vs) ++ 93 :: rest = _
          simp
        rw [he]
        simp only [parse_list_go, LIST_END_BYTE, SEP_BYTE]
        rw [if_neg (by omega : ¬ (44 : Nat) = 93),
          if_pos (List.length_pos.mpr hacc),
          if_neg (by simp : ¬ (44 : Nat) ≠ 44)]
        obtain ⟨t2, hh2, ht2⟩ := encodeMid_93_head vs rest
        have hlenv : 1 ≤ (encode_val v).length := encode_val_len_pos v hx.1
        have hlen4 : (encodeMid (v :: vs)).length =
            (encode_val v).length + (encodeMid vs).length + 1 := by
          show (44 :: encode_val v ++ encodeMid vs).length = _
          simp
        rw [hlen4] at hlen ⊢
        have hA := A_ih v (encodeMid vs ++ 93 :: rest) t2 hx.1 hh2 ht2 (by omega)
        have hB1 := B1_ih vs (acc ++ [v]) rest hx.2 (by simp) (by omega)
        simp only [hA, drop_len_append, hB1]
        exact ok_pair_eq (by simp) (by omega)
    · -- D0: first entry of a dict
      intro kvs rest hwf hnd hlen
      cases kvs with
      | nil =>
        have he : dictList ([] : List (List Nat × Value)) = [] := rfl
        rw [he] at hlen ⊢
        simp [parse_dict_go, DICT_END_BYTE]
      | cons e r =>
        obtain ⟨k, v⟩ := e
        have hx : spec_valid_dict_key k = true ∧ wfValue v = true ∧ wfKvs r = true := by
          simpa [wfKvs, and_assoc] using hwf
        obtain ⟨kc, ks, hk⟩ : ∃ kc ks, k = kc :: ks := by
          cases k with
          | nil => exact absurd hx.1 (by simp [spec_valid_dict_key])
          | cons a b => exact ⟨a, b, rfl⟩
        have hkc : isKeyChar kc = true := by
          have hkv := hx.1
          rw [hk] at hkv
          simp only [spec_valid_dict_key, Bool.and_eq_true, List.all_cons] at hkv
          exact hkv.2.1
        obtain ⟨-, -, hkc125, -, -, -⟩ := key_byte_facts hkc
        rw [dictList_cons_eq] at hlen ⊢
        have hb : ((k ++ 61 :: encode_val v) ++ dictMid r) ++ 125 :: rest =
            kc :: (ks ++ 61 :: encode_val v ++ dictMid r ++ 125 :: rest) := by
          rw [hk]; simp
        rw [hb]
        simp only [parse_dict_go, DICT_END_BYTE, SEP_BYTE]
        rw [if_neg hkc125, if_neg (by simp : ¬ 0 < ([] : List (List Nat × Value)).length)]
        have hb2 : kc :: (ks ++ 61 :: encode_val v ++ dictMid r ++ 125 :: rest) =
            k ++ 61 :: encode_val v ++ dictMid r ++ 125 :: rest := by
          rw [hk]; simp
        rw [hb2]
        have hnd2 : (([] : List (List Nat × Value)).map Prod.fst ++
            k :: r.map Prod.fst).Nodup := by simpa using hnd
        have hlen5 : ((k ++ 61 :: encode_val v) ++ dictMid r).length =
            (k ++ 61 :: encode_val v ++ dictMid r).length := by simp
        rw [hlen5] at hlen ⊢
        have hDE := DE_ih k v r [] rest hx.1 hx.2.1 hx.2.2 hnd2 (by omega)
        simp only [hDE]
        exact ok_pair_eq (by simp) (by omega)
    · -- D1: subsequent entries of a dict
      intro kvs d rest hwf hnd hdne hlen
      cases kvs with
      | nil =>
        have he : dictMid ([] : List (List Nat × Value)) = [] := rfl
        rw [he] at hlen ⊢
        simp [parse_dict_go, DICT_END_BYTE]
      | cons e r =>
        obtain ⟨k, v⟩ := e
        have hx : spec_valid_dict_key k = true ∧ wfValue v = true ∧ wfKvs r = true := by
          simpa [wfKvs, and_assoc] using hwf
        obtain ⟨kc, ks, hk⟩ : ∃ kc ks, k = kc :: ks := by
          cases k with
          | nil => exact absurd hx.1 (by simp [spec_valid_dict_key])
          | cons a b => exact ⟨a, b, rfl⟩
        have he : dictMid ((k, v) :: r) ++ 125 :: rest =
            44 :: (k ++ 61 :: encode_val v ++ dictMid r ++ 125 :: rest) := by
          show ((44 :: (k ++ 61 :: encode_val v)) ++ dictMid r) ++ 125 :: rest = _
          simp
        rw [he]
        simp only [parse_dict_go, DICT_END_BYTE, SEP_BYTE]
        rw [if_neg (by omega : ¬ (44 : Nat) = 125),
          if_pos (List.length_pos.mpr hdne),
          if_neg (by simp : ¬ (44 : Nat) ≠ 44),
          if_neg (by rw [hk]; simp :
            ¬ (k ++ 61 :: encode_val v ++ dictMid r ++ 125 :: rest) = [])]
        have hlen6 : (dictMid ((k, v) :: r)).length =
            (k ++ 61 :: encode_val v ++ dictMid r).length + 1 := by
          show ((44 :: (k ++ 61 :: encode_val v)) ++ dictMid r).length = _
          simp
        rw [hlen6] at hlen ⊢
        have hDE := DE_ih k v r d rest hx.1 hx.2.1 hx.2.2 hnd (by omega)
        simp only [hDE]
        exact ok_pair_eq rfl (by omega)
    · -- DE: one dict entry followed by the rest of the loop
      intro k v kvs2 d rest hkey hwfv hwf2 hnd hlen
      have hkall : ∀ b ∈ k, isKeyChar b = true := by
        intro b hb
        have hkv := hkey
        simp only [spec_valid_dict_key, Bool.and_eq_true] at hkv
        exact List.all_eq_true.mp hkv.2 b hb
      have hkne : k ≠ [] := by
        intro hknil
        rw [hknil] at hkey
        simp [spec_valid_dict_key] at hkey
      have hlenk : 1 ≤ k.length := by
        cases k with
        | nil => exact absurd rfl hkne
        | cons a b => simp
      have hlenv : 1 ≤ (encode_val v).length := encode_val_len_pos v hwfv
      have hlentotal : (k ++ 61 :: encode_val v ++ dictMid kvs2).length =
          k.length + 1 + (encode_val v).length + (dictMid kvs2).length := by
        simp
        first | omega | rfl
      rw [hlentotal] at hlen ⊢
      have hcur : k ++ 61 :: encode_val v ++ dictMid kvs2 ++ 125 :: rest =
          k ++ 61 :: (encode_val v ++ (dictMid kvs2 ++ 125 :: rest)) := by simp
      rw [hcur]
      simp only [parse_dict_entry]
      have htake : (k ++ 61 :: (encode_val v ++ (dictMid kvs2 ++ 125 :: rest))).takeWhile
          (fun b => b ≠ 61) = k := by
        rw [takeWhile_append_of_all (fun b hb => by
          obtain ⟨-, h61, -, -, -, -⟩ := key_byte_facts (hkall b hb)
          simp [h61])]
        rw [takeWhile_cons_false (by simp)]
        simp
      rw [htake]
      rw [if_neg (by
        simp only [List.length_append, List.length_cons]
        omega)]
      rw [if_neg (by
        simp only [Decidable.not_not]
        exact List.all_eq_true.mpr (fun b hb => by
          obtain ⟨h127, -, -, -, -, -⟩ := key_byte_facts (hkall b hb)
          simpa using h127))]
      rw [if_neg (by
        simp only [Decidable.not_not]
        exact spec_key_valid k hkey)]
      rw [drop_key_eq]
      obtain ⟨t2, hh2, ht2⟩ := dictMid_125_head kvs2 rest
      have hA := A_ih v (dictMid kvs2 ++ 125 :: rest) t2 hwfv hh2 ht2 (by omega)
      simp only [hA]
      have hdrop : (k ++ 61 :: (encode_val v ++ (dictMid kvs2 ++ 125 :: rest))).drop
          (k.length + 1 + (encode_val v).length) =
          dictMid kvs2 ++ 125 :: rest := by
        have hshape : k ++ 61 :: (encode_val v ++ (dictMid kvs2 ++ 125 :: rest)) =
            ((k ++ [61]) ++ encode_val v) ++ (dictMid kvs2 ++ 125 :: rest) := by simp
        rw [hshape]
        have hl : ((k ++ [61]) ++ encode_val v).length =
            k.length + 1 + (encode_val v).length := by
          simp
          first | omega | rfl
        rw [← hl, drop_len_append]
      rw [hdrop]
      have hknotin : k ∉ d.map Prod.fst := by
        intro hkin
        have hdisj := List.disjoint_of_nodup_append hnd
        exact hdisj hkin (List.mem_cons_self k _)
      rw [dictInsert_not_mem d k v hknotin]
      have hnd3 : ((d ++ [(k, v)]).map Prod.fst ++ kvs2.map Prod.fst).Nodup := by
        have hmap : (d ++ [(k, v)]).map Prod.fst ++ kvs2.map Prod.fst =
            d.map Prod.fst ++ k :: kvs2.map Prod.fst := by simp
        rw [hmap]
        exact hnd
      have hD1 := D1_ih kvs2 (d ++ [(k, v)]) rest hwf2 hnd3 (by simp) (by omega)
      simp only [hD1]
      exact ok_pair_eq (by simp) (by omega)

/-- Helper: taking as many elements as the left part of an append returns
that left part. -/
theorem take_len_append {α : Type} (l1 l2 : List α) :
    (l1 ++ l2).take l1.length = l1 := by
  induction l1 with
  | nil => rfl
  | cons a r ih => simpa using ih

/-- Helper: dropping the left part of an append plus `i` more drops `i`
elements of the right part. -/
theorem drop_len_append_plus {α : Type} (l1 l2 : List α) (i : Nat) :
    (l1 ++ l2).drop (l1.length + i) = l2.drop i := by
  induction l1 with
  | nil => simp
  | cons a r ih =>
    have h : (a :: r).length + i = (r.length + i) + 1 := by simp <;> omega
    rw [h]
    simpa using ih

/-- Joining encoded arguments with separators agrees with the bridge
definition `encodeList`. -/
theorem joinBytes_map_encode (vs : List Value) :
    joinBytes (vs.map encode_val) = encodeList vs := by
  induction vs with
  | nil => rfl
  | cons v ws ih =>
    cases ws with
    | nil => rfl
    | cons w ws2 =>
      show encode_val v ++ 44 :: joinBytes ((w :: ws2).map encode_val) = _
      rw [ih]
      rfl

/-- Parsing the encoded argument list of a well-formed message returns
exactly those arguments. -/
theorem parse_args_encodeList (vs : List Value) (h : wfValues vs = true) :
    parse_args (encodeList vs) = .ok vs := by
  have hflen2 : (91 :: (encodeList vs ++ [93]) : List Nat).length =
      (encodeList vs).length + 2 := by simp
  have hgo := (parse_encode_roundtrip ((encodeList vs).length + 2 + 1)).2.1 vs []
    h (by omega)
  simp only [parse_args, LIST_START_BYTE, LIST_END_BYTE, List.cons_append]
  simp only [hflen2]
  simp only [parse_list, LIST_START_BYTE]
  simp only [if_true, hgo]
  rw [if_neg (by omega)]

/-- A message well-formed for the round trip passes `validate`. -/
theorem wf_validateOk (m : Msg) (h : wfMsg m = true) : validateOk m = true := by
  obtain ⟨op, tok, args⟩ := m
  simp only [wfMsg, Bool.and_eq_true] at h
  cases tok with
  | none => simp at h
  | some t =>
    simp only at h
    simp only [validateOk, Bool.and_eq_true]
    exact ⟨⟨h.1.1, h.1.2⟩, wf_validateArgs args h.2⟩

/-- Facts extracted from `is_valid_opcode`. -/
theorem valid_opcode_facts {op : List Nat} (h : is_valid_opcode op = true) :
    op.length = 4 ∧ ∀ c ∈ op, 33 ≤ c ∧ c ≤ 126 ∧ c ≠ 32 ∧ c ≠ 60 ∧ c ≠ 62 := by
  simp only [is_valid_opcode, Bool.and_eq_true, decide_eq_true_eq] at h
  refine ⟨h.1, fun c hc => ?_⟩
  have hx := List.all_eq_true.mp h.2 c hc
  simp only [Bool.and_eq_true, decide_eq_true_eq] at hx
  exact ⟨hx.1.1.1.1, hx.1.1.1.2, hx.1.1.2, hx.1.2, hx.2⟩

/-- Facts extracted from `is_valid_token`. -/
theorem valid_token_facts {t : List Nat} (h : is_valid_token t = true) :
    t.length = 2 ∧ ∀ c ∈ t, 33 ≤ c ∧ c ≤ 126 ∧ c ≠ 32 ∧ c ≠ 60 ∧ c ≠ 62 := by
  simp only [is_valid_token, Bool.and_eq_true, decide_eq_true_eq] at h
  refine ⟨h.1, fun c hc => ?_⟩
  have hx := List.all_eq_true.mp h.2 c hc
  simp only [Bool.and_eq_true, decide_eq_true_eq] at hx
  exact ⟨hx.1.1.1.1, hx.1.1.1.2, hx.1.1.2, hx.1.2, hx.2⟩

/-- Decoding a frame built around argument bytes that parse back: the two
checkbyte positions are ignored by `decode`, so they may hold anything. -/
theorem decode_frame_build (op t A : List Nat) (args : List Value) (L C : Nat)
    (hop4 : op.length = 4) (ht2 : t.length = 2)
    (hopa : op.all (· ≤ 127) = true) (hta : t.all (· ≤ 127) = true)
    (hparse : parse_args A = .ok args)
    (hval : validateOk ⟨op, some t, args⟩ = true) :
    Msg.decode (60 :: (op ++ (t ++ (A ++ [62, L, C])))) true =
      .ok ⟨op, some t, args⟩ := by
  have hlenF : (60 :: (op ++ (t ++ (A ++ [62, L, C]))) : List Nat).length =
      A.length + 10 := by simp [hop4, ht2] <;> omega
  have hd1 : (((60 :: (op ++ (t ++ (A ++ [62, L, C]))) : List Nat)).drop 1).take 4 =
      op := by
    rw [show ((60 :: (op ++ (t ++ (A ++ [62, L, C]))) : List Nat).drop 1) =
      op ++ (t ++ (A ++ [62, L, C])) from rfl]
    rw [← hop4]
    exact take_len_append _ _
  have hd5 : (((60 :: (op ++ (t ++ (A ++ [62, L, C]))) : List Nat)).drop 5).take 2 =
      t := by
    rw [show ((60 :: (op ++ (t ++ (A ++ [62, L, C]))) : List Nat).drop 5) =
      (op ++ (t ++ (A ++ [62, L, C]))).drop 4 from rfl]
    rw [show (4 : Nat) = op.length + 0 by omega, drop_len_append_plus]
    simp only [List.drop_zero]
    rw [← ht2]
    exact take_len_append _ _
  have hd7 : ((60 :: (op ++ (t ++ (A ++ [62, L, C]))) : List Nat)).drop 7 =
      A ++ [62, L, C] := by
    rw [show ((60 :: (op ++ (t ++ (A ++ [62, L, C]))) : List Nat).drop 7) =
      (op ++ (t ++ (A ++ [62, L, C]))).drop 6 from rfl]
    rw [show (6 : Nat) = op.length + 2 by omega, drop_len_append_plus]
    rw [show (2 : Nat) = t.length + 0 by omega, drop_len_append_plus]
    simp only [List.drop_zero]
  have hdl : (A ++ [62, L, C]).dropLast.dropLast.dropLast = A := by
    have e1 : A ++ [62, L, C] = ((A ++ [62]) ++ [L]) ++ [C] := by simp
    rw [e1, List.dropLast_concat, List.dropLast_concat, List.dropLast_concat]
  simp only [Msg.decode, MIN_FRAME_LEN]
  rw [if_neg (show ¬ (60 :: (op ++ (t ++ (A ++ [62, L, C]))) : List Nat).length < 10 by
    rw [hlenF]; omega)]
  rw [hd1, hd5]
  rw [if_pos (show (op.all (· ≤ 127) && t.all (· ≤ 127)) = true by simp [hopa, hta])]
  rw [hd7, hdl]
  simp only [hparse, hval, if_true]

/-- Decoding inverts encoding for well-formed messages. -/
theorem decode_of_encode (m : Msg) (hwf : wfMsg m = true) (f : List Nat)
    (hf : Msg.encode m = .ok f) : Msg.decode f true = .ok m := by
  have hval := wf_validateOk m hwf
  obtain ⟨op, tok, args⟩ := m
  simp only [wfMsg, Bool.and_eq_true] at hwf
  cases tok with
  | none => simp at hwf
  | some t =>
    simp only at hwf
    obtain ⟨⟨hop, htok⟩, hargs⟩ := hwf
    obtain ⟨hop4, hopc⟩ := valid_opcode_facts hop
    obtain ⟨ht2, htc⟩ := valid_token_facts htok
    simp only [Msg.encode, hval, if_true, FRAME_START_BYTE, FRAME_END_BYTE,
      joinBytes_map_encode] at hf
    have hfeq := Except.ok.inj hf
    subst hfeq
    have hshape : ((60 :: op ++ t ++ encodeList args) ++
        [62, length_checksum ((60 :: op ++ t ++ encodeList args).length + 3)]) ++
        [calc_checksum ((60 :: op ++ t ++ encodeList args) ++
          [62, length_checksum ((60 :: op ++ t ++ encodeList args).length + 3)])] =
        60 :: (op ++ (t ++ (encodeList args ++
          [62, length_checksum ((60 :: op ++ t ++ encodeList args).length + 3),
           calc_checksum ((60 :: op ++ t ++ encodeList args) ++
             [62, length_checksum ((60 :: op ++ t ++ encodeList args).length + 3)])]))) := by
      simp
    rw [hshape]
    exact decode_frame_build op t (encodeList args) args _ _ hop4 ht2
      (List.all_eq_true.mpr (fun c hc => by
        have := (hopc c hc).2.1
        simp <;> omega))
      (List.all_eq_true.mpr (fun c hc => by
        have := (htc c hc).2.1
        simp <;> omega))
      (parse_args_encodeList args hargs) hval

/-- Claim C1: for every message within the spec preconditions (dict keys
in ascending byte order, floats surviving the 6-significant-figure round
trip), decoding the encoded frame returns the message, and re-encoding the
decoded message reproduces the frame byte for byte. -/
theorem c1_roundtrip_identity (m : Msg) (h : wfMsg m = true) :
    ∃ f, Msg.encode m = .ok f ∧ Msg.decode f true = .ok m ∧
      (Msg.decode f true).bind Msg.encode = .ok f := by
  obtain ⟨f, hf⟩ : ∃ f, Msg.encode m = .ok f := by
    have hval := wf_validateOk m h
    obtain ⟨op, tok, args⟩ := m
    cases tok with
    | none => simp [validateOk] at hval
    | some t =>
      simp only [Msg.encode, hval, if_true]
      exact ⟨_, rfl⟩
  have hdec : Msg.decode f true = .ok m := decode_of_encode m h f hf
  refine ⟨f, hf, hdec, ?_⟩
  rw [hdec]
  simpa using hf

/-- Witness for C1 at the RUNR example message of the test suite. -/
theorem c1_roundtrip_identity_witness :
    wfMsg ⟨s2b "RUNR", some (s2b "aa"),
      [.real (s2b "1.23"), .bool true, .str (s2b "Hi!"),
       .list [.int 1, .int 2]]⟩ = true ∧
    ∃ f, Msg.encode ⟨s2b "RUNR", some (s2b "aa"),
        [.real (s2b "1.23"), .bool true, .str (s2b "Hi!"),
         .list [.int 1, .int 2]]⟩ = .ok f ∧
      Msg.decode f true = .ok ⟨s2b "RUNR", some (s2b "aa"),
        [.real (s2b "1.23"), .bool true, .str (s2b "Hi!"),
         .list [.int 1, .int 2]]⟩ ∧
      (Msg.decode f true).bind Msg.encode = .ok f :=
  ⟨rfl, c1_roundtrip_identity _ rfl⟩

/-- Escape output bytes never collide with NUL or the frame delimiters. -/
theorem escapeByte_safe (b x : Nat) (hx : x ∈ escapeByte b) :
    x ≠ 0 ∧ x ≠ 60 ∧ x ≠ 62 := by
  unfold escapeByte at hx
  split_ifs at hx with h1 h2 h3 h4 h5 h6 h7 <;> simp at hx
  · subst hx; omega
  · rcases hx with rfl | rfl <;> omega
  · rcases hx with rfl | rfl <;> omega
  · rcases hx with rfl | rfl <;> omega
  · rcases hx with rfl | rfl <;> omega
  · rcases hx with rfl | rfl <;> omega
  · rcases hx with rfl | rfl <;> omega
  · subst hx; omega

/-- Bytes of an escaped buffer never collide with NUL or the frame
delimiters. -/
theorem escapeBytes_safe (s : List Nat) : ∀ x ∈ escapeBytes s,
    x ≠ 0 ∧ x ≠ 60 ∧ x ≠ 62 := by
  induction s with
  | nil => intro x hx; simp [escapeBytes] at hx
  | cons b t ih =>
    intro x hx
    simp only [escapeBytes, List.mem_append] at hx
    rcases hx with hx | hx
    · exact escapeByte_safe b x hx
    · exact ih x hx

/-- Bytes of an encoded string or blob never collide with NUL or the frame
delimiters. -/
theorem encode_bytes_safe (s : List Nat) : ∀ x ∈ encode_bytes s,
    x ≠ 0 ∧ x ≠ 60 ∧ x ≠ 62 := by
  intro x hx
  rw [show encode_bytes s = (34 :: escapeBytes s) ++ [34] from rfl] at hx
  rcases List.mem_append.mp hx with hx | hx
  · rcases List.mem_cons.mp hx with rfl | hx
    · omega
    · exact escapeBytes_safe s x hx
  · have hx34 := List.mem_singleton.mp hx
    subst hx34
    omega

/-- Membership through the stable insertion. -/
theorem insertPair_mem (p q : List Nat × List Nat) :
    ∀ l, q ∈ insertPair p l → q = p ∨ q ∈ l := by
  intro l
  induction l with
  | nil => intro h; simpa [insertPair] using h
  | cons e r ih =>
    intro h
    simp only [insertPair] at h
    split_ifs at h
    · rcases List.mem_cons.mp h with h | h
      · exact Or.inl h
      · exact Or.inr h
    · rcases List.mem_cons.mp h with h | h
      · exact Or.inr (List.mem_cons.mpr (Or.inl h))
      · rcases ih h with h | h
        · exact Or.inl h
        · exact Or.inr (List.mem_cons.mpr (Or.inr h))

/-- Membership through the stable sort. -/
theorem sortPairs_mem (q : List Nat × List Nat) :
    ∀ l, q ∈ sortPairs l → q ∈ l := by
  intro l
  induction l with
  | nil => intro h; simpa [sortPairs] using h
  | cons e r ih =>
    intro h
    rcases insertPair_mem e q (sortPairs r) h with h | h
    · exact List.mem_cons.mpr (Or.inl h)
    · exact List.mem_cons.mpr (Or.inr (ih h))

/-- A byte of a joined list is a separator or a byte of a part. -/
theorem joinBytes_mem (x : Nat) : ∀ ls, x ∈ joinBytes ls →
    x = 44 ∨ ∃ l ∈ ls, x ∈ l := by
  intro ls
  induction ls with
  | nil => intro h; simp [joinBytes] at h
  | cons a r ih =>
    intro h
    cases r with
    | nil =>
      refine Or.inr ⟨a, List.mem_cons_self a [], ?_⟩
      simpa [joinBytes] using h
    | cons b r2 =>
      simp only [joinBytes, List.mem_append, List.mem_cons] at h
      rcases h with h | h | h
      · exact Or.inr ⟨a, List.mem_cons_self a _, h⟩
      · exact Or.inl h
      · rcases ih h with h | ⟨l, hl, hxl⟩
        · exact Or.inl h
        · exact Or.inr ⟨l, List.mem_cons_of_mem a hl, hxl⟩

mutual

/-- Bytes of an encoded well-formed value never collide with NUL or the
frame delimiters (the escaping of `_encode_bytes` covers strings and
blobs; all other value syntax is drawn from safe characters). -/
theorem encode_val_frame_safe : (v : Value) → wfValue v = true →
    ∀ x ∈ encode_val v, x ≠ 0 ∧ x ≠ 60 ∧ x ≠ 62
  | .int n, _ => by
    intro x hx
    rw [show encode_val (.int n) = intToDec n by simp [encode_val]] at hx
    have h := intToDec_bytes n x hx
    simp only [isDigitByte, Bool.and_eq_true, decide_eq_true_eq] at h
    omega
  | .real s, h => by
    intro x hx
    rw [show encode_val (.real s) = s by simp [encode_val]] at hx
    have hfok : floatOk s = true := by simpa [wfValue] using h
    have hc := (floatOk_facts hfok).2 x hx
    simp only [isFloatChar, isDigitByte, Bool.or_eq_true, Bool.and_eq_true,
      decide_eq_true_eq] at hc
    omega
  | .bool true, _ => by
    intro x hx
    rw [show encode_val (.bool true) = [84] by simp [encode_val]] at hx
    simp at hx; subst hx; omega
  | .bool false, _ => by
    intro x hx
    rw [show encode_val (.bool false) = [70] by simp [encode_val]] at hx
    simp at hx; subst hx; omega
  | .null, _ => by
    intro x hx
    rw [show encode_val .null = [78] by simp [encode_val]] at hx
    simp at hx; subst hx; omega
  | .str s, _ => by
    intro x hx
    rw [show encode_val (.str s) = encode_bytes s by simp [encode_val]] at hx
    exact encode_bytes_safe s x hx
  | .bytes b, _ => by
    intro x hx
    rw [show encode_val (.bytes b) = 48 :: encode_bytes b by simp [encode_val]] at hx
    rcases List.mem_cons.mp hx with rfl | hx
    · omega
    · exact encode_bytes_safe b x hx
  | .list xs, h => by
    intro x hx
    rw [show encode_val (.list xs) = 91 :: encodeList xs ++ [93] by
      simp [encode_val, LIST_START_BYTE, LIST_END_BYTE]] at hx
    have hwf : wfValues xs = true := by simpa [wfValue] using h
    rcases List.mem_cons.mp hx with rfl | hx
    · omega
    · rcases List.mem_append.mp hx with hx | hx
      · exact encodeList_frame_safe xs hwf x hx
      · simp at hx; subst hx; omega
  | .tuple xs, h => by simp [wfValue] at h
  | .dict kvs, h => by
    intro x hx
    have hwf : wfKvs kvs = true := by
      have := h
      simp only [wfValue, Bool.and_eq_true] at this
      exact this.2
    simp only [encode_val, DICT_START_BYTE, DICT_END_BYTE] at hx
    rcases List.mem_cons.mp hx with rfl | hx
    · omega
    · rcases List.mem_append.mp hx with hx | hx
      · rcases joinBytes_mem x _ hx with rfl | ⟨l, hl, hxl⟩
        · omega
        · obtain ⟨p, hp, hpl⟩ := List.mem_map.mp hl
          have hpE := sortPairs_mem p _ hp
          have hsafe := encodeEntries_frame_safe kvs hwf p hpE
          rw [← hpl] at hxl
          rcases List.mem_append.mp hxl with hx2 | hx2
          · exact hsafe.1 x hx2
          · rcases List.mem_cons.mp hx2 with rfl | hx2
            · omega
            · exact hsafe.2 x hx2
      · simp at hx; subst hx; omega

/-- Bytes of an encoded well-formed argument list never collide with NUL
or the frame delimiters. -/
theorem encodeList_frame_safe : (xs : List Value) → wfValues xs = true →
    ∀ x ∈ encodeList xs, x ≠ 0 ∧ x ≠ 60 ∧ x ≠ 62
  | [], _ => by intro x hx; simp [encodeList] at hx
  | [v], h => by
    intro x hx
    rw [show encodeList [v] = encode_val v from rfl] at hx
    have hv : wfValue v = true := by simpa [wfValues] using h
    exact encode_val_frame_safe v hv x hx
  | v :: w :: ws, h => by
    intro x hx
    have hx2 : wfValue v = true ∧ wfValues (w :: ws) = true := by
      simpa [wfValues, and_assoc] using h
    rw [show encodeList (v :: w :: ws) = encode_val v ++ 44 :: encodeList (w :: ws)
      from rfl] at hx
    rcases List.mem_append.mp hx with hx | hx
    · exact encode_val_frame_safe v hx2.1 x hx
    · rcases List.mem_cons.mp hx with rfl | hx
      · omega
      · exact encodeList_frame_safe (w :: ws) hx2.2 x hx

/-- Bytes of the encoded entries of a well-formed dict never collide with
NUL or the frame delimiters, keys and values alike. -/
theorem encodeEntries_frame_safe : (kvs : List (List Nat × Value)) →
    wfKvs kvs = true → ∀ p ∈ encodeEntries kvs,
    (∀ x ∈ p.1, x ≠ 0 ∧ x ≠ 60 ∧ x ≠ 62) ∧
    (∀ x ∈ p.2, x ≠ 0 ∧ x ≠ 60 ∧ x ≠ 62)
  | [], _ => by intro p hp; simp [encodeEntries] at hp
  | (k, v) :: r, h => by
    intro p hp
    have hx : spec_valid_dict_key k = true ∧ wfValue v = true ∧ wfKvs r = true := by
      simpa [wfKvs, and_assoc] using h
    rw [show encodeEntries ((k, v) :: r) = (k, encode_val v) :: encodeEntries r
      from rfl] at hp
    rcases List.mem_cons.mp hp with rfl | hp
    · refine ⟨fun x hxk => ?_, fun x hxv => encode_val_frame_safe v hx.2.1 x hxv⟩
      have hkc : isKeyChar x = true := by
        have hh := hx.1
        simp only [spec_valid_dict_key, Bool.and_eq_true] at hh
        exact List.all_eq_true.mp hh.2 x hxk
      simp only [isKeyChar, Bool.or_eq_true, Bool.and_eq_true,
        decide_eq_true_eq] at hkc
      omega
    · exact encodeEntries_frame_safe r hx.2.2 p hp

end

/-- Helper: indexing past the left part of an append indexes the right
part. -/
theorem getD_len_append (l1 l2 : List Nat) (i d : Nat) :
    (l1 ++ l2).getD (l1.length + i) d = l2.getD i d := by
  induction l1 with
  | nil => simp
  | cons a r ih =>
    have h : (a :: r).length + i = (r.length + i) + 1 := by simp <;> omega
    rw [h]
    simpa using ih

/-- One reader step in `WAIT_ON_END` on a frame-safe byte appends it. -/
theorem read_step_mid (acc : List Nat) (st : Stats) (b maxlen : Nat)
    (h0 : b ≠ 0) (h60 : b ≠ 60) (h62 : b ≠ 62) :
    read_step ⟨acc, .waitOnEnd, st⟩ b maxlen =
      .ok (⟨acc ++ [b], .waitOnEnd, st⟩, none) := by
  simp [read_step, FRAME_START_BYTE, FRAME_END_BYTE, h0, h60, h62]

/-- One reader step on the start byte from the idle state. -/
theorem read_step_start (st : Stats) (maxlen : Nat) :
    read_step ⟨[], .waitOnStart, st⟩ 60 maxlen =
      .ok (⟨[60], .waitOnEnd, st⟩, none) := by
  simp [read_step, FRAME_START_BYTE]

/-- One reader step on the end byte while inside a frame. -/
theorem read_step_end (acc : List Nat) (st : Stats) (maxlen : Nat) :
    read_step ⟨acc, .waitOnEnd, st⟩ 62 maxlen =
      .ok (⟨acc ++ [62], .waitOnLength, st⟩, none) := by
  simp [read_step, FRAME_START_BYTE, FRAME_END_BYTE]

/-- One reader step consuming the length checkbyte. -/
theorem read_step_len (acc : List Nat) (st : Stats) (b maxlen : Nat)
    (h0 : b ≠ 0) (h60 : b ≠ 60) :
    read_step ⟨acc, .waitOnLength, st⟩ b maxlen =
      .ok (⟨acc ++ [b], .waitOnChecksum, st⟩, none) := by
  simp [read_step, FRAME_START_BYTE, h0, h60]

/-- One reader step consuming the content checkbyte completes the frame. -/
theorem read_step_chk (acc : List Nat) (st : Stats) (b maxlen : Nat)
    (h0 : b ≠ 0) (h60 : b ≠ 60) (msgOpt : Option Msg) (st2 : Stats)
    (hcf : convert_frame (acc ++ [b]) st maxlen = .ok (msgOpt, st2)) :
    read_step ⟨acc, .waitOnChecksum, st⟩ b maxlen =
      .ok (⟨[], .waitOnStart, st2⟩, msgOpt) := by
  simp [read_step, FRAME_START_BYTE, h0, h60, hcf]

/-- Reader steps compose over concatenated input. -/
theorem read_go_append (a : List Nat) : ∀ (b : List Nat) (s : RState)
    (maxlen : Nat) (s1 : RState) (ms1 : List Msg) (s2 : RState) (ms2 : List Msg),
    read_go s a maxlen = .ok (s1, ms1) →
    read_go s1 b maxlen = .ok (s2, ms2) →
    read_go s (a ++ b) maxlen = .ok (s2, ms1 ++ ms2) := by
  induction a with
  | nil =>
    intro b s maxlen s1 ms1 s2 ms2 h1 h2
    simp only [read_go, Except.ok.injEq, Prod.mk.injEq] at h1
    obtain ⟨h1a, h1b⟩ := h1
    subst h1a; subst h1b
    simpa using h2
  | cons x xs ih =>
    intro b s maxlen s1 ms1 s2 ms2 h1 h2
    cases hstep : read_step s x maxlen with
    | error e => simp [read_go, hstep] at h1
    | ok p =>
      obtain ⟨sx, out⟩ := p
      simp only [read_go, hstep] at h1 ⊢
      cases hrec : read_go sx xs maxlen with
      | error e => rw [hrec] at h1; simp at h1
      | ok q =>
        obtain ⟨s3, msgs⟩ := q
        rw [hrec] at h1
        simp only [Except.ok.injEq, Prod.mk.injEq] at h1
        obtain ⟨h1a, h1b⟩ := h1
        subst h1a
        subst h1b
        have hcomp := ih b sx maxlen s3 msgs s2 ms2 hrec h2
        rw [show xs.append b = xs ++ b from rfl, hcomp]
        simp

/-- The reader consumes frame-safe interior bytes by appending them to the
frame buffer. -/
theorem read_go_mid (mid : List Nat) : ∀ (acc : List Nat) (st : Stats)
    (rest : List Nat) (maxlen : Nat) (res : Except PErr (RState × List Msg)),
    (∀ b ∈ mid, b ≠ 0 ∧ b ≠ 60 ∧ b ≠ 62) →
    read_go ⟨acc ++ mid, .waitOnEnd, st⟩ rest maxlen = res →
    read_go ⟨acc, .waitOnEnd, st⟩ (mid ++ rest) maxlen = res := by
  induction mid with
  | nil =>
    intro acc st rest maxlen res h hres
    simpa using hres
  | cons b t ih =>
    intro acc st rest maxlen res h hres
    have hb := h b (List.mem_cons_self b t)
    have hstep := read_step_mid acc st b maxlen hb.1 hb.2.1 hb.2.2
    have hres2 : read_go ⟨(acc ++ [b]) ++ t, .waitOnEnd, st⟩ rest maxlen = res := by
      rw [show (acc ++ [b]) ++ t = acc ++ b :: t by simp]
      exact hres
    have hrec := ih (acc ++ [b]) st rest maxlen res
      (fun x hx => h x (List.mem_cons_of_mem b hx)) hres2
    rw [show (b :: t) ++ rest = b :: (t ++ rest) from rfl]
    simp only [read_go, hstep]
    rw [hrec]
    rcases res with e | ⟨s3, msgs⟩ <;> simp

/-- One reader step in the idle state on any byte other than the start
byte stays idle with an empty buffer and does not touch the good-frame
counter. -/
theorem read_step_noise (st : Stats) (b maxlen : Nat) (h60 : b ≠ 60) :
    ∃ st2, read_step ⟨[], .waitOnStart, st⟩ b maxlen =
      .ok (⟨[], .waitOnStart, st2⟩, none) ∧
      st2.n_good_frames = st.n_good_frames := by
  by_cases h0 : b = 0
  · subst h0
    exact ⟨{ st with n_invalid_bytes := st.n_invalid_bytes + 1 },
      by simp [read_step], rfl⟩
  · by_cases h62 : b = 62
    · subst h62
      exact ⟨{ st with n_missing_start_byte := st.n_missing_start_byte + 1 },
        by simp [read_step, FRAME_START_BYTE, FRAME_END_BYTE, h0, h60], rfl⟩
    · exact ⟨st,
        by simp [read_step, FRAME_START_BYTE, FRAME_END_BYTE, h0, h60, h62], rfl⟩

/-- Noise without a start byte leaves the reader idle with an empty buffer,
yields no message and does not touch the good-frame counter. -/
theorem read_go_noise (noise : List Nat) : ∀ (st : Stats) (maxlen : Nat),
    (∀ b ∈ noise, b ≠ 60) →
    ∃ st2, read_go ⟨[], .waitOnStart, st⟩ noise maxlen =
      .ok (⟨[], .waitOnStart, st2⟩, []) ∧
      st2.n_good_frames = st.n_good_frames := by
  induction noise with
  | nil => intro st maxlen h; exact ⟨st, by simp [read_go], rfl⟩
  | cons b t ih =>
    intro st maxlen h
    obtain ⟨st1, hstep, hg1⟩ := read_step_noise st b maxlen (h b (List.mem_cons_self b t))
    obtain ⟨st2, hgo, hg2⟩ := ih st1 maxlen (fun x hx => h x (List.mem_cons_of_mem b hx))
    refine ⟨st2, ?_, by rw [hg2, hg1]⟩
    simp [read_go, hstep, hgo]

/-- Helper: indexing an append exactly at the left length. -/
theorem getD_len_append0 (l1 l2 : List Nat) (d : Nat) :
    (l1 ++ l2).getD l1.length d = l2.getD 0 d := by
  have h := getD_len_append l1 l2 0 d
  simpa using h

/-- The frame checks of `convert_frame` all pass on a frame whose two
checkbytes were computed by `encode` and whose payload decodes. -/
theorem convert_frame_build (mid : List Nat) (m : Msg) (st : Stats)
    (maxlen L C : Nat)
    (hL : L = length_checksum (mid.length + 4))
    (hC : C = calc_checksum (60 :: (mid ++ [62, L])))
    (hdec : Msg.decode (60 :: (mid ++ [62, L, C])) true = .ok m)
    (hmin : 6 ≤ mid.length)
    (hlen : mid.length + 4 ≤ maxlen) :
    convert_frame (60 :: (mid ++ [62, L, C])) st maxlen =
      .ok (some m, { st with n_good_frames := st.n_good_frames + 1 }) := by
  have hflen : (60 :: (mid ++ [62, L, C]) : List Nat).length = mid.length + 4 := by
    simp <;> omega
  have hpos1 : (60 :: (mid ++ [62, L, C]) : List Nat).getD (mid.length + 1) 0 = 62 := by
    rw [List.getD_cons_succ, getD_len_append0]
    rfl
  have hpos2 : (60 :: (mid ++ [62, L, C]) : List Nat).getD (mid.length + 2) 0 = L := by
    rw [show mid.length + 2 = (mid.length + 1) + 1 by omega, List.getD_cons_succ,
      getD_len_append]
    rfl
  have hpos3 : (60 :: (mid ++ [62, L, C]) : List Nat).getD (mid.length + 3) 0 = C := by
    rw [show mid.length + 3 = (mid.length + 2) + 1 by omega, List.getD_cons_succ,
      getD_len_append]
    rfl
  have hdrop : (60 :: (mid ++ [62, L, C]) : List Nat).dropLast =
      60 :: (mid ++ [62, L]) := by
    rw [show (60 :: (mid ++ [62, L, C]) : List Nat) =
      (60 :: (mid ++ [62, L])) ++ [C] by simp, List.dropLast_concat]
  simp only [convert_frame, MIN_FRAME_LEN, FRAME_START_BYTE, FRAME_END_BYTE, hflen]
  rw [if_neg (show ¬ mid.length + 4 < 10 by omega)]
  rw [if_neg (show ¬ maxlen < mid.length + 4 by omega)]
  rw [if_neg (show ¬ (maxlen < mid.length + 4 ∧
    max_frame_hard_limit maxlen < mid.length + 4) from fun hx => absurd hx.1 (by omega))]
  rw [if_neg (show ¬ (60 :: (mid ++ [62, L, C]) : List Nat).head? ≠ some 60 by simp)]
  rw [show mid.length + 4 - 3 = mid.length + 1 by omega, hpos1]
  rw [if_neg (show ¬ (62 : Nat) ≠ 62 by simp)]
  rw [show mid.length + 4 - 2 = mid.length + 2 by omega, hpos2]
  rw [if_neg (show ¬ L ≠ length_checksum (mid.length + 4) by simp [hL])]
  rw [show mid.length + 4 - 1 = mid.length + 3 by omega, hpos3, hdrop]
  rw [if_neg (show ¬ C ≠ calc_checksum (60 :: (mid ++ [62, L])) by simp [hC])]
  simp only [hdec]

/-- The reader walks an encoded frame byte by byte from the idle state,
completes it and yields the decoded message. -/
theorem read_go_frame (m : Msg) (mid : List Nat) (st : Stats)
    (maxlen L C : Nat)
    (hsafe : ∀ b ∈ mid, b ≠ 0 ∧ b ≠ 60 ∧ b ≠ 62)
    (hLr : 33 ≤ L ∧ L ≤ 126 ∧ L ≠ 60 ∧ L ≠ 62)
    (hCr : 33 ≤ C ∧ C ≤ 126 ∧ C ≠ 60 ∧ C ≠ 62)
    (hcf : convert_frame (60 :: (mid ++ [62, L, C])) st maxlen =
      .ok (some m, { st with n_good_frames := st.n_good_frames + 1 })) :
    read_go ⟨[], .waitOnStart, st⟩ (60 :: (mid ++ [62, L, C])) maxlen =
      .ok (⟨[], .waitOnStart,
        { st with n_good_frames := st.n_good_frames + 1 }⟩, [m]) := by
  have htail : read_go ⟨[60] ++ mid, .waitOnEnd, st⟩ [62, L, C] maxlen =
      .ok (⟨[], .waitOnStart,
        { st with n_good_frames := st.n_good_frames + 1 }⟩, [m]) := by
    have h1 := read_step_end ([60] ++ mid) st maxlen
    have h2 := read_step_len (([60] ++ mid) ++ [62]) st L maxlen
      (by omega) hLr.2.2.1
    have h3 : convert_frame (((([60] ++ mid) ++ [62]) ++ [L]) ++ [C]) st maxlen =
        .ok (some m, { st with n_good_frames := st.n_good_frames + 1 }) := by
      rw [show (((([60] ++ mid) ++ [62]) ++ [L]) ++ [C] : List Nat) =
        60 :: (mid ++ [62, L, C]) by simp]
      exact hcf
    have h4 := read_step_chk ((([60] ++ mid) ++ [62]) ++ [L]) st C maxlen
      (by omega) hCr.2.2.1 (some m)
      { st with n_good_frames := st.n_good_frames + 1 } h3
    simp only [read_go, h1, h2, h4]
    simp
  have hmid := read_go_mid mid [60] st [62, L, C] maxlen _ hsafe htail
  simp only [read_go, read_step_start st maxlen]
  rw [hmid]
  simp

set_option maxRecDepth 8000 in
/-- Claim C7: after arbitrary noise free of the start byte, a valid encoded
frame still yields its message; the concrete stream
noise NUL <DISRXY>i_ noise <XYZAzZ101,[0,42]>SH yields exactly the DISR/XY
and XYZA/zZ messages in order and counts one invalid byte for the NUL. -/
theorem c7_resynchronisation :
    (∀ (noise : List Nat) (m : Msg) (f : List Nat) (st : Stats) (maxlen : Nat),
      (∀ b ∈ noise, b ≠ 60) → wfMsg m = true → Msg.encode m = .ok f →
      f.length ≤ maxlen →
      ∃ st2, read_go ⟨[], .waitOnStart, st⟩ (noise ++ f) maxlen =
        .ok (⟨[], .waitOnStart, st2⟩, [m]) ∧
        st2.n_good_frames = st.n_good_frames + 1) ∧
    read_chunk ⟨[], .waitOnStart, Stats.init⟩
      (s2b "noise" ++ 0 :: s2b "<DISRXY>i_noise<XYZAzZ101,[0,42]>SH") 512 =
      .ok (⟨[], .waitOnStart, ⟨0, 0, 0, 0, 1, 0, 0, 2⟩⟩,
        [⟨s2b "DISR", some (s2b "XY"), []⟩,
         ⟨s2b "XYZA", some (s2b "zZ"), [.int 101, .list [.int 0, .int 42]]⟩]) ∧
    (⟨0, 0, 0, 0, 1, 0, 0, 2⟩ : Stats).n_invalid_bytes =
      Stats.init.n_invalid_bytes + 1 := by
  refine ⟨?_, by rfl, by rfl⟩
  intro noise m f st maxlen hnoise hwf hf hlen
  have hdec := decode_of_encode m hwf f hf
  have hval := wf_validateOk m hwf
  obtain ⟨op, tok, args⟩ := m
  have hwf2 := hwf
  simp only [wfMsg, Bool.and_eq_true] at hwf2
  cases tok with
  | none => simp at hwf2
  | some t =>
    simp only at hwf2
    obtain ⟨⟨hop, htok⟩, hargs⟩ := hwf2
    obtain ⟨hop4, hopc⟩ := valid_opcode_facts hop
    obtain ⟨ht2, htc⟩ := valid_token_facts htok
    simp only [Msg.encode, hval, if_true, FRAME_START_BYTE, FRAME_END_BYTE,
      joinBytes_map_encode] at hf
    have hfeq := Except.ok.inj hf
    subst hfeq
    set A := encodeList args with hA
    set L0 := length_checksum ((60 :: op ++ t ++ A).length + 3) with hL0
    set C0 := calc_checksum ((60 :: op ++ t ++ A) ++ [62, L0]) with hC0
    have hshape : ((60 :: op ++ t ++ A) ++ [62, L0]) ++ [C0] =
        60 :: ((op ++ (t ++ A)) ++ [62, L0, C0]) := by simp
    rw [hshape] at hdec hlen
    have hmidlen : (op ++ (t ++ A)).length = A.length + 6 := by
      simp [hop4, ht2] <;> omega
    have hsafe : ∀ b ∈ op ++ (t ++ A), b ≠ 0 ∧ b ≠ 60 ∧ b ≠ 62 := by
      intro b hb
      rcases List.mem_append.mp hb with hb | hb
      · obtain ⟨hb1, hb2, hb3, hb4, hb5⟩ := hopc b hb
        exact ⟨by omega, hb4, hb5⟩
      · rcases List.mem_append.mp hb with hb | hb
        · obtain ⟨hb1, hb2, hb3, hb4, hb5⟩ := htc b hb
          exact ⟨by omega, hb4, hb5⟩
        · exact encodeList_frame_safe args hargs b (hA ▸ hb)
    have hLr : 33 ≤ L0 ∧ L0 ≤ 126 ∧ L0 ≠ 60 ∧ L0 ≠ 62 := by
      rw [hL0]
      unfold length_checksum
      exact checkbyte_range _
    have hCr : 33 ≤ C0 ∧ C0 ≤ 126 ∧ C0 ≠ 60 ∧ C0 ≠ 62 := by
      rw [hC0]
      unfold calc_checksum
      exact checkbyte_range _
    obtain ⟨st1, hngo, hg1⟩ := read_go_noise noise st maxlen hnoise
    have hLeq : L0 = length_checksum ((op ++ (t ++ A)).length + 4) := by
      rw [hL0]
      congr 1
      simp <;> omega
    have hCeq : C0 = calc_checksum (60 :: ((op ++ (t ++ A)) ++ [62, L0])) := by
      rw [hC0]
      congr 1
      simp
    have hlen2 : (op ++ (t ++ A)).length + 4 ≤ maxlen := by
      simp only [List.length_cons, List.length_append] at hlen ⊢
      omega
    have hcf := convert_frame_build (op ++ (t ++ A)) ⟨op, some t, args⟩ st1 maxlen
      L0 C0 hLeq hCeq hdec (by rw [hmidlen]; omega) hlen2
    have hframe := read_go_frame ⟨op, some t, args⟩ (op ++ (t ++ A)) st1 maxlen
      L0 C0 hsafe hLr hCr hcf
    refine ⟨{ st1 with n_good_frames := st1.n_good_frames + 1 }, ?_, by simp [hg1]⟩
    have hcomp := read_go_append noise (60 :: ((op ++ (t ++ A)) ++ [62, L0, C0]))
      ⟨[], .waitOnStart, st⟩ maxlen ⟨[], .waitOnStart, st1⟩ []
      ⟨[], .waitOnStart, { st1 with n_good_frames := st1.n_good_frames + 1 }⟩
      [⟨op, some t, args⟩] hngo hframe
    simpa using hcomp

/-- Witness for C7: two noise bytes, then the DISR frame of the test suite. -/
theorem c7_resynchronisation_witness :
    (∀ b ∈ ([1, 2] : List Nat), b ≠ 60) ∧
    wfMsg ⟨s2b "DISR", some (s2b "XY"), []⟩ = true ∧
    Msg.encode ⟨s2b "DISR", some (s2b "XY"), []⟩ = .ok (s2b "<DISRXY>i_") ∧
    (s2b "<DISRXY>i_").length ≤ 512 ∧
    ∃ st2, read_go ⟨[], .waitOnStart, Stats.init⟩ ([1, 2] ++ s2b "<DISRXY>i_") 512 =
      .ok (⟨[], .waitOnStart, st2⟩, [⟨s2b "DISR", some (s2b "XY"), []⟩]) ∧
      st2.n_good_frames = Stats.init.n_good_frames + 1 :=
  ⟨by decide, rfl, rfl, by decide,
    c7_resynchronisation.1 [1, 2] ⟨s2b "DISR", some (s2b "XY"), []⟩
      (s2b "<DISRXY>i_") Stats.init 512 (by decide) rfl rfl (by decide)⟩

mutual

/-- A value with no Python tuple anywhere inside. -/
def tupleFree : Value → Bool
  | .tuple _ => false
  | .list xs => tupleFrees xs
  | .dict kvs => tupleFreeKvs kvs
  | .int _ => true
  | .real _ => true
  | .bool _ => true
  | .null => true
  | .str _ => true
  | .bytes _ => true

/-- An argument list with no tuple anywhere inside. -/
def tupleFrees : List Value → Bool
  | [] => true
  | v :: vs => tupleFree v && tupleFrees vs

/-- Dict entries with no tuple anywhere inside. -/
def tupleFreeKvs : List (List Nat × Value) → Bool
  | [] => true
  | (_, v) :: r => tupleFree v && tupleFreeKvs r

end

mutual

/-- Replace every tuple by the list of the same elements, the way a full
decode round trip does. -/
def detuple : Value → Value
  | .tuple xs => .list (detuples xs)
  | .list xs => .list (detuples xs)
  | .dict kvs => .dict (detupleKvs kvs)
  | .int n => .int n
  | .real s => .real s
  | .bool b => .bool b
  | .null => .null
  | .str s => .str s
  | .bytes b => .bytes b

/-- Replace tuples by lists in an argument list. -/
def detuples : List Value → List Value
  | [] => []
  | v :: vs => detuple v :: detuples vs

/-- Replace tuples by lists in dict entries. -/
def detupleKvs : List (List Nat × Value) → List (List Nat × Value)
  | [] => []
  | (k, v) :: r => (k, detuple v) :: detupleKvs r

end

/-- The message with every tuple argument replaced by the equal list. -/
def detupleMsg (m : Msg) : Msg := ⟨m.opcode, m.token, detuples m.args⟩

mutual

/-- Replacing tuples by lists leaves no tuple behind. -/
theorem detuple_tupleFree : (v : Value) → tupleFree (detuple v) = true
  | .tuple xs => by
    rw [show detuple (.tuple xs) = .list (detuples xs) by simp [detuple]]
    rw [show tupleFree (.list (detuples xs)) = tupleFrees (detuples xs) by
      simp [tupleFree]]
    exact detuples_tupleFree xs
  | .list xs => by
    rw [show detuple (.list xs) = .list (detuples xs) by simp [detuple]]
    rw [show tupleFree (.list (detuples xs)) = tupleFrees (detuples xs) by
      simp [tupleFree]]
    exact detuples_tupleFree xs
  | .dict kvs => by
    rw [show detuple (.dict kvs) = .dict (detupleKvs kvs) by simp [detuple]]
    rw [show tupleFree (.dict (detupleKvs kvs)) = tupleFreeKvs (detupleKvs kvs) by
      simp [tupleFree]]
    exact detupleKvs_tupleFree kvs
  | .int n => rfl
  | .real s => rfl
  | .bool b => rfl
  | .null => rfl
  | .str s => rfl
  | .bytes b => rfl

/-- Replacing tuples by lists in a list leaves no tuple behind. -/
theorem detuples_tupleFree : (xs : List Value) → tupleFrees (detuples xs) = true
  | [] => rfl
  | v :: vs => by
    rw [show detuples (v :: vs) = detuple v :: detuples vs by simp [detuples]]
    rw [show tupleFrees (detuple v :: detuples vs) =
      (tupleFree (detuple v) && tupleFrees (detuples vs)) by simp [tupleFrees]]
    rw [detuple_tupleFree v, detuples_tupleFree vs]
    rfl

/-- Replacing tuples by lists in dict entries leaves no tuple behind. -/
theorem detupleKvs_tupleFree : (kvs : List (List Nat × Value)) →
    tupleFreeKvs (detupleKvs kvs) = true
  | [] => rfl
  | (k, v) :: r => by
    rw [show detupleKvs ((k, v) :: r) = (k, detuple v) :: detupleKvs r by
      simp [detupleKvs]]
    rw [show tupleFreeKvs ((k, detuple v) :: detupleKvs r) =
      (tupleFree (detuple v) && tupleFreeKvs (detupleKvs r)) by simp [tupleFreeKvs]]
    rw [detuple_tupleFree v, detupleKvs_tupleFree r]
    rfl

end

mutual

/-- Tuples encode to exactly the bytes of the equal list, so replacing
tuples by lists does not change the encoding. -/
theorem encode_val_detuple : (v : Value) → encode_val (detuple v) = encode_val v
  | .tuple xs => by
    rw [show detuple (.tuple xs) = .list (detuples xs) by simp [detuple]]
    rw [show encode_val (.list (detuples xs)) =
      91 :: encodeList (detuples xs) ++ [93] by
      simp [encode_val, LIST_START_BYTE, LIST_END_BYTE]]
    rw [show encode_val (.tuple xs) = 91 :: encodeList xs ++ [93] by
      simp [encode_val, LIST_START_BYTE, LIST_END_BYTE]]
    rw [encodeList_detuples xs]
  | .list xs => by
    rw [show detuple (.list xs) = .list (detuples xs) by simp [detuple]]
    rw [show encode_val (.list (detuples xs)) =
      91 :: encodeList (detuples xs) ++ [93] by
      simp [encode_val, LIST_START_BYTE, LIST_END_BYTE]]
    rw [show encode_val (.list xs) = 91 :: encodeList xs ++ [93] by
      simp [encode_val, LIST_START_BYTE, LIST_END_BYTE]]
    rw [encodeList_detuples xs]
  | .dict kvs => by
    rw [show detuple (.dict kvs) = .dict (detupleKvs kvs) by simp [detuple]]
    rw [show encode_val (.dict (detupleKvs kvs)) = DICT_START_BYTE ::
      joinBytes ((sortPairs (encodeEntries (detupleKvs kvs))).map
        (fun p => p.1 ++ 61 :: p.2)) ++ [DICT_END_BYTE] by simp [encode_val]]
    rw [show encode_val (.dict kvs) = DICT_START_BYTE ::
      joinBytes ((sortPairs (encodeEntries kvs)).map
        (fun p => p.1 ++ 61 :: p.2)) ++ [DICT_END_BYTE] by simp [encode_val]]
    rw [encodeEntries_detuple kvs]
  | .int n => rfl
  | .real s => rfl
  | .bool b => rfl
  | .null => rfl
  | .str s => rfl
  | .bytes b => rfl

/-- Replacing tuples by lists does not change the encoded item list. -/
theorem encodeList_detuples : (xs : List Value) →
    encodeList (detuples xs) = encodeList xs
  | [] => rfl
  | [v] => by
    rw [show detuples [v] = [detuple v] by simp [detuples, detuple]]
    rw [show encodeList [detuple v] = encode_val (detuple v) by simp [encodeList]]
    rw [show encodeList [v] = encode_val v by simp [encodeList]]
    exact encode_val_detuple v
  | v :: w :: ws => by
    rw [show detuples (v :: w :: ws) = detuple v :: detuples (w :: ws) by
      simp [detuples]]
    have hne : detuples (w :: ws) = detuple w :: detuples ws := by simp [detuples]
    rw [show encodeList (detuple v :: detuples (w :: ws)) =
      encode_val (detuple v) ++ 44 :: encodeList (detuples (w :: ws)) by
      rw [hne]; simp [encodeList]]
    rw [show encodeList (v :: w :: ws) =
      encode_val v ++ 44 :: encodeList (w :: ws) by simp [encodeList]]
    rw [encode_val_detuple v, encodeList_detuples (w :: ws)]

/-- Replacing tuples by lists does not change the encoded dict entries. -/
theorem encodeEntries_detuple : (kvs : List (List Nat × Value)) →
    encodeEntries (detupleKvs kvs) = encodeEntries kvs
  | [] => rfl
  | (k, v) :: r => by
    rw [show detupleKvs ((k, v) :: r) = (k, detuple v) :: detupleKvs r by
      simp [detupleKvs]]
    rw [show encodeEntries ((k, detuple v) :: detupleKvs r) =
      (k, encode_val (detuple v)) :: encodeEntries (detupleKvs r) by
      simp [encodeEntries]]
    rw [show encodeEntries ((k, v) :: r) =
      (k, encode_val v) :: encodeEntries r by simp [encodeEntries]]
    rw [encode_val_detuple v, encodeEntries_detuple r]

end

mutual

/-- Replacing tuples by lists does not change the `validate` verdict. -/
theorem validateArg_detuple : (v : Value) → validateArg (detuple v) = validateArg v
  | .tuple xs => by
    rw [show detuple (.tuple xs) = .list (detuples xs) by simp [detuple]]
    rw [show validateArg (.list (detuples xs)) = validateArgs (detuples xs) by
      simp [validateArg]]
    rw [show validateArg (.tuple xs) = validateArgs xs by simp [validateArg]]
    exact validateArgs_detuples xs
  | .list xs => by
    rw [show detuple (.list xs) = .list (detuples xs) by simp [detuple]]
    rw [show validateArg (.list (detuples xs)) = validateArgs (detuples xs) by
      simp [validateArg]]
    rw [show validateArg (.list xs) = validateArgs xs by simp [validateArg]]
    exact validateArgs_detuples xs
  | .dict kvs => by
    rw [show detuple (.dict kvs) = .dict (detupleKvs kvs) by simp [detuple]]
    rw [show validateArg (.dict (detupleKvs kvs)) = validateKvs (detupleKvs kvs) by
      simp [validateArg]]
    rw [show validateArg (.dict kvs) = validateKvs kvs by simp [validateArg]]
    exact validateKvs_detuple kvs
  | .int n => rfl
  | .real s => rfl
  | .bool b => rfl
  | .null => rfl
  | .str s => rfl
  | .bytes b => rfl

/-- Replacing tuples by lists does not change argument validation. -/
theorem validateArgs_detuples : (xs : List Value) →
    validateArgs (detuples xs) = validateArgs xs
  | [] => rfl
  | v :: vs => by
    rw [show detuples (v :: vs) = detuple v :: detuples vs by simp [detuples]]
    rw [show validateArgs (detuple v :: detuples vs) =
      (validateArg (detuple v) && validateArgs (detuples vs)) by simp [validateArgs]]
    rw [show validateArgs (v :: vs) = (validateArg v && validateArgs vs) by
      simp [validateArgs]]
    rw [validateArg_detuple v, validateArgs_detuples vs]

/-- Replacing tuples by lists does not change dict-entry validation. -/
theorem validateKvs_detuple : (kvs : List (List Nat × Value)) →
    validateKvs (detupleKvs kvs) = validateKvs kvs
  | [] => rfl
  | (k, v) :: r => by
    rw [show detupleKvs ((k, v) :: r) = (k, detuple v) :: detupleKvs r by
      simp [detupleKvs]]
    rw [show validateKvs ((k, detuple v) :: detupleKvs r) =
      (is_valid_dict_key k && validateArg (detuple v) && validateKvs (detupleKvs r)) by
      simp [validateKvs]]
    rw [show validateKvs ((k, v) :: r) =
      (is_valid_dict_key k && validateArg v && validateKvs r) by simp [validateKvs]]
    rw [validateArg_detuple v, validateKvs_detuple r]

end

/-- Replacing tuples by lists does not change the `validate` verdict of a
message. -/
theorem validateOk_detuple (m : Msg) : validateOk (detupleMsg m) = validateOk m := by
  obtain ⟨op, tok, args⟩ := m
  cases tok with
  | none => simp [validateOk, detupleMsg]
  | some t =>
    simp only [validateOk, detupleMsg]
    rw [validateArgs_detuples args]

/-- Claim C10: tuples are accepted by the encoder wherever lists are and
encode to exactly the bytes of the equal list, while decoding always
produces lists; so a message with a tuple argument anywhere inside
encodes but does not decode back to itself — the round trip returns the
message with its tuples turned into lists. -/
theorem c10_tuples_decode_as_lists (m : Msg)
    (hwf : wfMsg (detupleMsg m) = true)
    (ht : tupleFrees m.args = false) :
    (∀ xs, encode_val (.tuple xs) = encode_val (.list xs) ∧
      validateArg (.tuple xs) = validateArg (.list xs)) ∧
    ∃ f, Msg.encode m = .ok f ∧ Msg.decode f true = .ok (detupleMsg m) ∧
      detupleMsg m ≠ m ∧ Msg.decode f true ≠ .ok m := by
  refine ⟨fun xs => ⟨by simp [encode_val], by simp [validateArg]⟩, ?_⟩
  have hval2 : validateOk (detupleMsg m) = true := wf_validateOk _ hwf
  have hval1 : validateOk m = true := by rw [← validateOk_detuple]; exact hval2
  have hencs : Msg.encode m = Msg.encode (detupleMsg m) := by
    obtain ⟨op, tok, args⟩ := m
    have hv1 : validateOk ⟨op, tok, args⟩ = true := hval1
    have hv2 : validateOk ⟨op, tok, (detupleMsg ⟨op, tok, args⟩).args⟩ = true := by
      exact hval2
    cases tok with
    | none => simp [validateOk] at hv1
    | some t =>
      simp only [detupleMsg] at hv2 ⊢
      simp only [Msg.encode, hv1, hv2, if_true]
      rw [show joinBytes ((detuples args).map encode_val) =
        joinBytes (args.map encode_val) by
        rw [joinBytes_map_encode, joinBytes_map_encode, encodeList_detuples]]
  obtain ⟨f, hf⟩ : ∃ f, Msg.encode (detupleMsg m) = .ok f := by
    obtain ⟨op, tok, args⟩ := m
    rw [show detupleMsg ⟨op, tok, args⟩ = ⟨op, tok, detuples args⟩ from rfl] at hval2 ⊢
    cases tok with
    | none => simp [validateOk] at hval2
    | some t =>
      simp only [Msg.encode, hval2, if_true]
      exact ⟨_, rfl⟩
  have hdec := decode_of_encode (detupleMsg m) hwf f hf
  have hne : detupleMsg m ≠ m := by
    intro he
    have hargs_eq : detuples m.args = m.args := by
      have := congrArg Msg.args he
      simpa [detupleMsg] using this
    have htf : tupleFrees (detuples m.args) = true := detuples_tupleFree m.args
    rw [hargs_eq, ht] at htf
    exact absurd htf (by simp)
  refine ⟨f, by rw [hencs]; exact hf, hdec, hne, ?_⟩
  rw [hdec]
  intro hcontr
  exact hne (Except.ok.inj hcontr)

/-- Witness for C10 at a message whose only argument is the empty tuple. -/
theorem c10_tuples_decode_as_lists_witness :
    wfMsg (detupleMsg ⟨s2b "TSTR", some (s2b "aa"), [.tuple []]⟩) = true ∧
    tupleFrees (⟨s2b "TSTR", some (s2b "aa"), [.tuple []]⟩ : Msg).args = false ∧
    ((∀ xs, encode_val (.tuple xs) = encode_val (.list xs) ∧
      validateArg (.tuple xs) = validateArg (.list xs)) ∧
    ∃ f, Msg.encode ⟨s2b "TSTR", some (s2b "aa"), [.tuple []]⟩ = .ok f ∧
      Msg.decode f true = .ok (detupleMsg ⟨s2b "TSTR", some (s2b "aa"), [.tuple []]⟩) ∧
      detupleMsg ⟨s2b "TSTR", some (s2b "aa"), [.tuple []]⟩ ≠
        ⟨s2b "TSTR", some (s2b "aa"), [.tuple []]⟩ ∧
      Msg.decode f true ≠ .ok ⟨s2b "TSTR", some (s2b "aa"), [.tuple []]⟩) :=
  ⟨rfl, rfl, c10_tuples_decode_as_lists ⟨s2b "TSTR", some (s2b "aa"), [.tuple []]⟩ rfl rfl⟩

end Oatmeal
